import Mathlib

set_option maxRecDepth 8000

/-!
Verification development for the debug-log collection and analysis subsystem:
the HTTP ingestion server (scripts/collector.mjs), the store-clearing script
(scripts/clear-logs.mjs), the analyzer (analyze-logs) and the tailer
(tail-logs).

The JavaScript sources are shallowly embedded:

* JSON values are modelled by the inductive type `Json` (mutually with
  `JArr` and `JObj` so that all recursions are structural and reduce in the
  kernel).  JSON numbers are modelled as integers: every value the claims
  exercise is an integer, and the order/equality behaviour of integral JSON
  numbers coincides with the model's.
* A line of the on-disk Entry Store is `StoreLine`: either a line that
  parses as JSON (`ok v`) or a malformed line (`bad raw`).  The collector
  and the analyzer work at this line granularity.
* The tailer works below line granularity (it slices the file by byte
  offsets), so for it the file is a `List Char` and entries are serialized
  with `stringify`, a model of `JSON.stringify`, and re-read with
  `jsonParse`, an executable model of `JSON.parse` (strict: no interior
  whitespace, integer numerals, and the escape sequences `stringify`
  emits — exactly the language `stringify` produces).
* Effects are passed explicitly: the server clock is an argument (`now`,
  or a call-indexed `clock` for the analyzer, which calls `Date.now()` once
  per entry that lacks a truthy timestamp), success of `appendFileSync` is
  a boolean argument, and the tailer's watch loop is a sequence of steps
  (`TStep`) acting on the file/tailer state.  A detection cycle is modelled
  as one atomic step: its `statSync` and `readFileSync` observe the same
  file contents.
-/

/-! ## JSON values -/

mutual
inductive Json where
  | null
  | bool (b : Bool)
  | num (n : Int)
  | str (s : String)
  | arr (xs : JArr)
  | obj (fields : JObj)

inductive JArr where
  | nil
  | cons (hd : Json) (tl : JArr)

inductive JObj where
  | nil
  | cons (key : String) (value : Json) (tl : JObj)
end

/-- JavaScript truthiness of a JSON value (`!x` is `!truthy x`).
`NaN` cannot occur: JSON has no `NaN` literal and the model's numbers are
integers. -/
def truthy : Json → Bool
  | .null => false
  | .bool b => b
  | .num n => n != 0
  | .str s => s != ""
  | .arr _ => true
  | .obj _ => true

/-- Truthiness of a possibly-absent value (`none` models `undefined`). -/
def truthyOpt : Option Json → Bool
  | none => false
  | some v => truthy v

/-- Property lookup in an object, first occurrence (a parsed JSON object
has no duplicate keys). -/
def findField : JObj → String → Option Json
  | .nil, _ => none
  | .cons k v tl, key => if k = key then some v else findField tl key

/-- `entry.f` for a JSON value: property access on a non-object (including
arrays, which carry no named properties after `JSON.parse`) yields
`undefined`, i.e. `none`. -/
def getField : Json → String → Option Json
  | .obj fs, key => findField fs key
  | _, _ => none

/-- Assignment `o.key = v` on an object: overwrite in place or append. -/
def setFieldObj : JObj → String → Json → JObj
  | .nil, k, v => .cons k v .nil
  | .cons k0 v0 tl, k, v =>
    if k0 = k then .cons k0 v tl else .cons k0 v0 (setFieldObj tl k v)

/-- Assignment `x.key = v`; on non-objects the claims never reach this
(the collector validates first), so the value is returned unchanged. -/
def setField : Json → String → Json → Json
  | .obj fs, k, v => .obj (setFieldObj fs k v)
  | j, _, _ => j

/-- `typeof x === 'object'` for a parsed JSON value: true for `null`,
arrays and objects. -/
def typeofObject : Json → Bool
  | .null => true
  | .arr _ => true
  | .obj _ => true
  | _ => false

/-- Is the (possibly absent) value a string? -/
def isStrOpt : Option Json → Bool
  | some (.str _) => true
  | _ => false

def digitChar (d : Nat) : Char :=
  if d = 0 then '0' else if d = 1 then '1' else if d = 2 then '2'
  else if d = 3 then '3' else if d = 4 then '4' else if d = 5 then '5'
  else if d = 6 then '6' else if d = 7 then '7' else if d = 8 then '8' else '9'

/-- Decimal digits of `n`, most significant first (`fuel`-structured so it
reduces in the kernel; any `fuel > n` is enough). -/
def natToCharsAux : Nat → Nat → List Char
  | 0, _ => []
  | fuel + 1, n => if n = 0 then [] else natToCharsAux fuel (n / 10) ++ [digitChar (n % 10)]

def natToChars (n : Nat) : List Char :=
  if n = 0 then ['0'] else natToCharsAux (n + 1) n

/-- Decimal rendering of an integer, as `String(n)` / `JSON.stringify(n)`
produce for integral numbers. -/
def intToChars (n : Int) : List Char :=
  if n < 0 then '-' :: natToChars n.natAbs else natToChars n.toNat

mutual
/-- JavaScript `String(v)` for a parsed JSON value (used for object
property keys, which JS coerces to strings): arrays stringify as their
elements joined with `","` (null elements become empty), plain objects as
`"[object Object]"`. -/
def jsToString : Json → String
  | .null => "null"
  | .bool true => "true"
  | .bool false => "false"
  | .num n => String.mk (intToChars n)
  | .str s => s
  | .arr xs => jarrToString xs
  | .obj _ => "[object Object]"

def jarrToString : JArr → String
  | .nil => ""
  | .cons x .nil => (match x with | .null => "" | _ => jsToString x)
  | .cons x (.cons y tl) =>
    (match x with | .null => "" | _ => jsToString x) ++ "," ++ jarrToString (.cons y tl)
end

/-- The string a value is coerced to when used as a JS property key;
`undefined` (an absent field) coerces to `"undefined"`. -/
def jsKey : Option Json → String
  | none => "undefined"
  | some v => jsToString v

def digitsVal (ds : List Char) : Nat :=
  ds.foldl (fun acc c => acc * 10 + (c.toNat - 48)) 0

/-- JavaScript `ToNumber` on a string, restricted to the integral literals
the model can represent (`none` models `NaN`; fractional, exponential and
hex literals are outside the model's number type and map to `none`). -/
def strToNumber (s : String) : Option Int :=
  let t := (s.data.dropWhile Char.isWhitespace).reverse.dropWhile Char.isWhitespace |>.reverse
  match t with
  | [] => some 0
  | '-' :: ds => if ds ≠ [] ∧ ds.all Char.isDigit then some (-(digitsVal ds : Int)) else none
  | '+' :: ds => if ds ≠ [] ∧ ds.all Char.isDigit then some ((digitsVal ds : Int)) else none
  | ds => if ds.all Char.isDigit then some ((digitsVal ds : Int)) else none

/-- `ToPrimitive` with number hint, as used by the relational operators:
arrays and objects are converted via their `toString`. -/
def jsToPrimitive : Json → Json
  | .arr xs => .str (jarrToString xs)
  | .obj _ => .str "[object Object]"
  | v => v

/-- `ToNumber` on a primitive (`none` models `NaN`). -/
def jsToNumber : Json → Option Int
  | .null => some 0
  | .bool b => some (if b then 1 else 0)
  | .num n => some n
  | .str s => strToNumber s
  | .arr xs => strToNumber (jarrToString xs)
  | .obj _ => none

/-- JavaScript `a < b`: if both primitives are strings, lexicographic;
otherwise numeric, and false if either side is `NaN`. -/
def jsLt (a b : Json) : Bool :=
  match jsToPrimitive a, jsToPrimitive b with
  | .str s, .str t => decide (s < t)
  | pa, pb =>
    match jsToNumber pa, jsToNumber pb with
    | some x, some y => decide (x < y)
    | _, _ => false

/-- JavaScript `a > b`. -/
def jsGt (a b : Json) : Bool := jsLt b a

/-- JavaScript `a <= b` (false when a side is `NaN`). -/
def jsLe (a b : Json) : Bool :=
  match jsToPrimitive a, jsToPrimitive b with
  | .str s, .str t => decide (s ≤ t)
  | pa, pb =>
    match jsToNumber pa, jsToNumber pb with
    | some x, some y => decide (x ≤ y)
    | _, _ => false

/-- JavaScript `a - b` restricted to a numeric result (`none` models
`NaN`). -/
def jsSub (a b : Json) : Option Int :=
  match jsToNumber (jsToPrimitive a), jsToNumber (jsToPrimitive b) with
  | some x, some y => some (x - y)
  | _, _ => none

/-! ## The Entry Store -/

/-- One line of the Entry Store (.debug/debug.log): either a line that
`JSON.parse` accepts, carrying its parsed value, or a malformed line. -/
inductive StoreLine where
  | ok (v : Json)
  | bad (raw : String)

/-- The Entry Store as a list of lines. -/
abbrev Store := List StoreLine

/-! ## Ingestion server (scripts/collector.mjs) -/

/-- `validateEntry` of collector.mjs: returns the error message, or `null`
(`none`) when the entry is acceptable.  `!x || typeof x !== 'string'` is
rendered as `!(truthy x && isString x)`. -/
def validateEntry (entry : Json) : Option String :=
  if !(truthy entry && typeofObject entry) then
    some "Entry must be a JSON object"
  else if !(truthyOpt (getField entry "location") && isStrOpt (getField entry "location")) then
    some "Missing required field: location"
  else if !(truthyOpt (getField entry "message") && isStrOpt (getField entry "message")) then
    some "Missing required field: message"
  else if !(truthyOpt (getField entry "hypothesisId") && isStrOpt (getField entry "hypothesisId")) then
    some "Missing required field: hypothesisId"
  else
    none

/-- `writeLogEntry` of collector.mjs, the pure part: default the timestamp
to the current time when the present one is falsy/absent, producing the
record that is appended (as one line) to the store. -/
def writeLogEntry (entry : Json) (now : Int) : Json :=
  if !truthyOpt (getField entry "timestamp") then
    setField entry "timestamp" (.num now)
  else entry

/-- The `POST /ingest` branch of `handleRequest` in collector.mjs.
`body = none` models a request body that `JSON.parse` rejects (the
`parseBody` promise rejects); `some v` is the parsed body, where `v` may
be `Json.null` for an empty body.  `appendOk = false` models
`appendFileSync` throwing an I/O error; the surrounding
`try/catch` turns both the parse rejection and that throw into a 400
response.  Result: (HTTP status, store after the request). -/
def handleIngest (store : Store) (body : Option Json) (now : Int) (appendOk : Bool) :
    Nat × Store :=
  match body with
  | none => (400, store)
  | some entry =>
    match validateEntry entry with
    | some _ => (400, store)
    | none =>
      if appendOk then (200, store ++ [StoreLine.ok (writeLogEntry entry now)])
      else (400, store)

/-! ## clear-logs (scripts/clear-logs.mjs) -/

/-- scripts/clear-logs.mjs: if the store file is absent, exit 0 touching
nothing; otherwise truncate it to empty (`writeFileSync(LOG_FILE, '')`)
and exit 0.  Result: (exit status, store state). -/
def clearLogs : Option Store → Nat × Option Store
  | none => (0, none)
  | some _ => (0, some [])

/-! ## Analyzer (analyze-logs) -/

/-- The per-error record `errorInfo` pushed onto a hypothesis group's
error list.  Field values are the entry's raw properties (possibly
`undefined`, i.e. `none`). -/
structure ErrorInfo where
  timestamp : Json
  location : Option Json
  message : Option Json
  data : Option Json

/-- A global error record: `{ ...errorInfo, hypothesisId: hId }` with the
entry's raw `hypothesisId`. -/
structure GlobalError where
  timestamp : Json
  location : Option Json
  message : Option Json
  data : Option Json
  hypothesisId : Option Json

/-- One hypothesis group of the analysis.  `levels` and `locations` are
JS objects used as counters: insertion-ordered string keys. -/
structure HypGroup where
  count : Nat
  levels : List (String × Nat)
  locations : List (String × Nat)
  errors : List ErrorInfo
  firstTimestamp : Json
  lastTimestamp : Json

/-- `analysis.timeRange`; `duration = none` models a `NaN` difference. -/
structure TimeRange where
  first : Option Json
  last : Option Json
  duration : Option Int

/-- The report object built by `analyzeEntries`.  `hypotheses` is a JS
object keyed by the (string-coerced) hypothesis id, insertion-ordered. -/
structure Analysis where
  total : Nat
  timeRange : TimeRange
  hypotheses : List (String × HypGroup)
  errors : List GlobalError

/-- Increment a counter object's key (`m[k] = (m[k] || 0) + 1`). -/
def bump (m : List (String × Nat)) (k : String) : List (String × Nat) :=
  match m with
  | [] => [(k, 1)]
  | (k0, n) :: tl => if k0 = k then (k0, n + 1) :: tl else (k0, n) :: bump tl k

/-- Read a counter object's key (`m[k] || 0`). -/
def lookupCount (m : List (String × Nat)) (k : String) : Nat :=
  match m with
  | [] => 0
  | (k0, n) :: tl => if k0 = k then n else lookupCount tl k

/-- Truthiness of the `--hypothesis` filter option (a JS string or
`null`): the empty string is falsy. -/
def filterTruthy : Option String → Bool
  | none => false
  | some s => s != ""

/-- `entry.hypothesisId !== filterHypothesis` (strict inequality against
the filter string; any non-string field value is strictly unequal). -/
def hypNeq (field : Option Json) (filt : Option String) : Bool :=
  match field, filt with
  | some (.str s), some x => s != x
  | _, _ => true

/-- `level === 'error'`-style strict comparison of a value to a string
literal. -/
def strictEqStr (v : Json) (s : String) : Bool :=
  match v with
  | .str t => t = s
  | _ => false

/-- The fresh group created when a hypothesis id is first seen. -/
def newGroup (ts : Json) : HypGroup :=
  ⟨0, [], [], [], ts, ts⟩

/-- The mutations `analyzeEntries` applies to the entry's group:
increment count, widen the timestamp range, count level and location,
and record the error when `level === 'error'`. -/
def stepGroup (locKey levelKey : String) (isErr : Bool) (ts : Json) (e : ErrorInfo)
    (g : HypGroup) : HypGroup :=
  { count := g.count + 1
    levels := bump g.levels levelKey
    locations := bump g.locations locKey
    errors := if isErr then g.errors ++ [e] else g.errors
    firstTimestamp := if jsLt ts g.firstTimestamp then ts else g.firstTimestamp
    lastTimestamp := if jsGt ts g.lastTimestamp then ts else g.lastTimestamp }

/-- `if (!analysis.hypotheses[hId]) { create }; mutate` fused into one
pass: modify the group at `key` (first occurrence), or append a fresh
group at the end — JS objects keep insertion order. -/
def updateHyps (gs : List (String × HypGroup)) (key : String) (g0 : HypGroup)
    (f : HypGroup → HypGroup) : List (String × HypGroup) :=
  match gs with
  | [] => [(key, f g0)]
  | (k, g) :: tl => if k = key then (k, f g) :: tl else (k, g) :: updateHyps tl key g0 f

/-- `ts < analysis.timeRange.first` where `first` may be `null`. -/
def jsLtOpt (ts : Json) (o : Option Json) : Bool :=
  match o with
  | some w => jsLt ts w
  | none => false

def jsGtOpt (ts : Json) (o : Option Json) : Bool :=
  match o with
  | some w => jsGt ts w
  | none => false

/-- The body of `analyzeEntries`' loop over entries.  `clock` is the
sequence of `Date.now()` results ( the call counter `n` is threaded
because the code calls `Date.now()` once per entry whose `timestamp` is
falsy).  An entry failing the hypothesis filter is skipped before any of
this runs. -/
def analyzeLoop (filt : Option String) (clock : Nat → Int) :
    List Json → Analysis → Nat → Analysis × Nat
  | [], a, n => (a, n)
  | e :: rest, a, n =>
    if filterTruthy filt && hypNeq (getField e "hypothesisId") filt then
      analyzeLoop filt clock rest a n
    else
      let tsF := getField e "timestamp"
      let ts : Json := if truthyOpt tsF then tsF.getD .null else .num (clock n)
      let n' := if truthyOpt tsF then n else n + 1
      let levF := getField e "level"
      let level : Json := if truthyOpt levF then levF.getD .null else .str "info"
      let isErr := strictEqStr level "error"
      let einfo : ErrorInfo :=
        ⟨ts, getField e "location", getField e "message", getField e "data"⟩
      let key := jsKey (getField e "hypothesisId")
      let a' : Analysis :=
        { total := a.total + 1
          timeRange :=
            { first := if !truthyOpt a.timeRange.first || jsLtOpt ts a.timeRange.first then
                         some ts
                       else a.timeRange.first
              last := if !truthyOpt a.timeRange.last || jsGtOpt ts a.timeRange.last then
                        some ts
                      else a.timeRange.last
              duration := a.timeRange.duration }
          hypotheses :=
            updateHyps a.hypotheses key (newGroup ts)
              (stepGroup (jsKey (getField e "location")) (jsToString level) isErr ts einfo)
          errors :=
            if isErr then
              a.errors ++ [⟨ts, getField e "location", getField e "message",
                            getField e "data", getField e "hypothesisId"⟩]
            else a.errors }
      analyzeLoop filt clock rest a' n'

/-- `analyzeEntries` of analyze-logs: fold the loop over the entries,
then compute `duration = last - first` when both ends are truthy. -/
def analyzeEntries (entries : List Json) (filt : Option String) (clock : Nat → Int) :
    Analysis :=
  let a := (analyzeLoop filt clock entries ⟨0, ⟨none, none, some 0⟩, [], []⟩ 0).1
  if truthyOpt a.timeRange.first && truthyOpt a.timeRange.last then
    { a with timeRange :=
        { a.timeRange with
          duration := jsSub (a.timeRange.last.getD .null) (a.timeRange.first.getD .null) } }
  else a

/-- `parseLogFile` of analyze-logs: lines that fail `JSON.parse` (and
blank lines, filtered even earlier) are skipped. -/
def parseLogFile (store : Store) : List Json :=
  store.filterMap fun l => match l with
    | .ok v => some v
    | .bad _ => none

/-- Running the analyzer over the store: parse then analyze.  A missing
store file reads as the empty store. -/
def analyzeStore (store : Store) (filt : Option String) (clock : Nat → Int) : Analysis :=
  analyzeEntries (parseLogFile store) filt clock

/-! ## Tailer (tail-logs) -/

/-- Characters that `JSON.stringify` escapes in string literals as the
model covers them (`\uXXXX` escapes of other control characters are not
produced by the values the development manipulates). -/
def escChar (c : Char) : List Char :=
  if c = '"' then ['\\', '"']
  else if c = '\\' then ['\\', '\\']
  else if c = '\n' then ['\\', 'n']
  else if c = '\t' then ['\\', 't']
  else if c = '\r' then ['\\', 'r']
  else [c]

/-- A JSON string literal: quoted, characters escaped. -/
def strLit (s : String) : List Char :=
  '"' :: (s.data.map escChar).flatten ++ ['"']

mutual
/-- `JSON.stringify` for the model: no interior whitespace, integers in
decimal, strings escaped by `escChar`.  The output never contains a raw
newline, which is what makes one store line per entry well defined. -/
def stringify : Json → List Char
  | .null => "null".data
  | .bool true => "true".data
  | .bool false => "false".data
  | .num n => intToChars n
  | .str s => strLit s
  | .arr xs => '[' :: stringifyArr xs ++ [']']
  | .obj fs => '{' :: stringifyObj fs ++ ['}']

def stringifyArr : JArr → List Char
  | .nil => []
  | .cons x .nil => stringify x
  | .cons x (.cons y tl) => stringify x ++ ',' :: stringifyArr (.cons y tl)

def stringifyObj : JObj → List Char
  | .nil => []
  | .cons k v .nil => strLit k ++ ':' :: stringify v
  | .cons k v (.cons k2 v2 tl) =>
    strLit k ++ ':' :: stringify v ++ ',' :: stringifyObj (.cons k2 v2 tl)
end

/-- Unescape one `\\c` escape code (the codes `JSON.parse` accepts other
than `\\u`, which `stringify` never emits). -/
def unescChar (c : Char) : Option Char :=
  if c = '"' then some '"'
  else if c = '\\' then some '\\'
  else if c = '/' then some '/'
  else if c = 'n' then some '\n'
  else if c = 't' then some '\t'
  else if c = 'r' then some '\r'
  else if c = 'b' then some (Char.ofNat 8)
  else if c = 'f' then some (Char.ofNat 12)
  else none

/-- Parse the body of a string literal up to the closing quote. -/
def pStrBody : List Char → Option (List Char × List Char)
  | [] => none
  | c :: rest =>
    if c = '"' then some ([], rest)
    else if c = '\\' then
      match rest with
      | [] => none
      | e :: rest2 =>
        match unescChar e with
        | some c2 => (pStrBody rest2).map fun p => (c2 :: p.1, p.2)
        | none => none
    else (pStrBody rest).map fun p => (c :: p.1, p.2)

/-- Parse a run of decimal digits. -/
def pNum (cs : List Char) : Option (Nat × List Char) :=
  let ds := cs.takeWhile Char.isDigit
  if ds = [] then none else some (digitsVal ds, cs.dropWhile Char.isDigit)

/-- Expect an exact literal suffix (the tails of `null`, `true`,
`false`), returning the remaining input. -/
def pLit : List Char → List Char → Option (List Char)
  | [], cs => some cs
  | _ :: _, [] => none
  | l :: ls, c :: cs => if c = l then pLit ls cs else none

mutual
/-- Recursive-descent value grammar of `JSON.parse`, fuelled so that the
recursion is structural (any fuel exceeding the input length is enough:
every level of nesting consumes at least one character). -/
def pVal : Nat → List Char → Option (Json × List Char)
  | 0, _ => none
  | fuel + 1, cs =>
    match cs with
    | [] => none
    | c :: rest =>
      if c = 'n' then
        match pLit ['u', 'l', 'l'] rest with
        | some rest1 => some (.null, rest1)
        | none => none
      else if c = 't' then
        match pLit ['r', 'u', 'e'] rest with
        | some rest1 => some (.bool true, rest1)
        | none => none
      else if c = 'f' then
        match pLit ['a', 'l', 's', 'e'] rest with
        | some rest1 => some (.bool false, rest1)
        | none => none
      else if c = '"' then
        match pStrBody rest with
        | some (s, rest1) => some (.str (String.mk s), rest1)
        | none => none
      else if c = '[' then
        if rest.head? = some ']' then some (.arr .nil, rest.tail)
        else
          match pElems fuel rest with
          | some (xs, rest1) => some (.arr xs, rest1)
          | none => none
      else if c = '{' then
        if rest.head? = some '}' then some (.obj .nil, rest.tail)
        else
          match pMembers fuel rest with
          | some (fs, rest1) => some (.obj fs, rest1)
          | none => none
      else if c = '-' then
        match pNum rest with
        | some (n, rest1) => some (.num (-(n : Int)), rest1)
        | none => none
      else if c.isDigit then
        match pNum (c :: rest) with
        | some (n, rest1) => some (.num (n : Int), rest1)
        | none => none
      else none

def pElems : Nat → List Char → Option (JArr × List Char)
  | 0, _ => none
  | fuel + 1, cs =>
    match pVal fuel cs with
    | some (v, ',' :: rest) =>
      match pElems fuel rest with
      | some (tl, rest1) => some (.cons v tl, rest1)
      | none => none
    | some (v, ']' :: rest) => some (.cons v .nil, rest)
    | _ => none

def pMembers : Nat → List Char → Option (JObj × List Char)
  | 0, _ => none
  | fuel + 1, cs =>
    match cs with
    | '"' :: rest =>
      match pStrBody rest with
      | some (k, ':' :: rest1) =>
        match pVal fuel rest1 with
        | some (v, ',' :: rest2) =>
          match pMembers fuel rest2 with
          | some (tl, rest3) => some (.cons (String.mk k) v tl, rest3)
          | none => none
        | some (v, '}' :: rest2) => some (.cons (String.mk k) v .nil, rest2)
        | _ => none
      | _ => none
    | _ => none
end

/-- `JSON.parse` over a whole line: the parse must consume the line. -/
def jsonParse (cs : List Char) : Option Json :=
  match pVal (cs.length + 1) cs with
  | some (v, []) => some v
  | _ => none

/-- The next character, if any, is not a digit — the shape of every
suffix that follows a serialized number inside a serialized line. -/
def headNotDigit : List Char → Bool
  | [] => true
  | c :: _ => !c.isDigit

/-- The tailer's mutable state: the read cursor `lastSize` and the
carry-over `buffer` holding a trailing partial line. -/
structure TailState where
  lastSize : Nat
  buffer : List Char

/-- JavaScript `s.split('\n')` (never returns an empty list). -/
def splitNl : List Char → List (List Char)
  | [] => [[]]
  | c :: rest =>
    if c = '\n' then [] :: splitNl rest
    else
      match splitNl rest with
      | [] => [[c]]
      | l :: ls => (c :: l) :: ls

/-- `readNewContent` of tail-logs as one detection cycle over the file
contents: on shrinkage reset cursor and buffer; on growth read the new
byte range, split into lines, hold back the trailing partial line.
Returns the complete lines to process and the new state. -/
def readNewContent (file : List Char) (st : TailState) : List (List Char) × TailState :=
  let currentSize := file.length
  let st1 := if currentSize < st.lastSize then TailState.mk 0 [] else st
  if currentSize > st1.lastSize then
    let newContent := file.drop st1.lastSize
    let buf := st1.buffer ++ newContent
    let parts := splitNl buf
    (parts.dropLast, ⟨currentSize, (parts.getLast?.getD [])⟩)
  else
    ([], st1)

/-- What the tailer does with a complete line: a blank line is skipped, a
parsed entry is printed (one emitted event), a line `JSON.parse` rejects
is reported as a parse error. -/
inductive TailEvent where
  | entry (v : Json)
  | parseError (line : List Char)

/-- `processNewLines` of tail-logs: skip blank lines, parse, apply the
hypothesis filter, emit. -/
def processNewLines (lines : List (List Char)) (filt : Option String) : List TailEvent :=
  lines.filterMap fun line =>
    if line.all Char.isWhitespace then none
    else
      match jsonParse line with
      | some v =>
        if filterTruthy filt && hypNeq (getField v "hypothesisId") filt then none
        else some (.entry v)
      | none => some (.parseError line)

/-- One step of a tailer run: an external append of one whole serialized
entry line (the spec's line-atomic append), one detection cycle, or a
truncation of the store to empty (clear-logs). -/
inductive TStep where
  | app (v : Json)
  | cyc
  | trunc

/-- The store line an appended entry contributes. -/
def lineOf (v : Json) : List Char := stringify v ++ ['\n']

/-- The file contents produced by a list of appended entries. -/
def fileOf (vs : List Json) : List Char := (vs.map lineOf).flatten

def tailStep (filt : Option String) : TStep → List Char × TailState →
    (List Char × TailState) × List TailEvent
  | .app v, (f, st) => ((f ++ lineOf v, st), [])
  | .cyc, (f, st) =>
    let r := readNewContent f st
    ((f, r.2), processNewLines r.1 filt)
  | .trunc, (_, st) => (([], st), [])

/-- Run a sequence of steps, collecting the emitted events in order. -/
def tailRun (filt : Option String) : List TStep → List Char × TailState →
    (List Char × TailState) × List TailEvent
  | [], s => (s, [])
  | stp :: rest, s =>
    let r := tailStep filt stp s
    let r2 := tailRun filt rest r.1
    (r2.1, r.2 ++ r2.2)

/-- The tailer watching an initially empty store: cursor at 0, empty
carry-over buffer. -/
def tailInit : List Char × TailState := ([], ⟨0, []⟩)

/-- The entries appended during a run, in order. -/
def appendsOf (steps : List TStep) : List Json :=
  steps.filterMap fun s => match s with
    | .app v => some v
    | _ => none

/-- No truncation occurs in the step sequence. -/
def noTrunc (steps : List TStep) : Bool :=
  steps.all fun s => match s with
    | .trunc => false
    | _ => true

/-! ## Notions used by the statements and proofs -/

/-- The tailer state that is "in sync" after having surfaced the first
`k` of the appended entries: cursor at the end of their lines, empty
carry-over buffer. -/
def syncSt (vs : List Json) (k : Nat) : TailState :=
  ⟨(fileOf (vs.take k)).length, []⟩

/-- Sum of the values of a counter object. -/
def sumSnd (m : List (String × Nat)) : Nat :=
  (m.map Prod.snd).sum

/-- The count of the group stored under key `k` (0 when absent). -/
def groupCount (gs : List (String × HypGroup)) (k : String) : Nat :=
  match gs with
  | [] => 0
  | (k0, g) :: tl => if k0 = k then g.count else groupCount tl k

/-- Does the parsed line carry a string `hypothesisId`? -/
def hasStrHyp (v : Json) : Bool :=
  isStrOpt (getField v "hypothesisId")

/-- Is the value a JSON number? -/
def isNum (v : Json) : Bool :=
  match v with
  | .num _ => true
  | _ => false

/-- Is the value a JSON string? -/
def isStr (v : Json) : Bool :=
  match v with
  | .str _ => true
  | _ => false

/-- A parsed line is `goodEntry` when its `timestamp` field, if truthy, is
a number, and its `level` field, if truthy, is a string — the shape every
entry produced by the documented logging clients has. -/
def goodEntry (v : Json) : Bool :=
  (match getField v "timestamp" with
   | some w => !truthy w || isNum w
   | none => true) &&
  (match getField v "level" with
   | some w => !truthy w || isStr w
   | none => true)

/-- The per-group bookkeeping invariants of an analysis report; the
timestamp bounds are numbers in order, so in particular the JS comparison
`firstTimestamp <= lastTimestamp` holds. -/
def GroupInv (g : HypGroup) : Prop :=
  g.count = sumSnd g.levels ∧
  g.count = sumSnd g.locations ∧
  g.errors.length = lookupCount g.levels "error" ∧
  (∃ x y : Int, g.firstTimestamp = .num x ∧ g.lastTimestamp = .num y ∧ x ≤ y) ∧
  jsLe g.firstTimestamp g.lastTimestamp = true

/-- The global bookkeeping invariants of an analysis report. -/
def AnalysisInv (a : Analysis) : Prop :=
  (∀ kg ∈ a.hypotheses, GroupInv kg.2) ∧
  a.total = (a.hypotheses.map fun kg => kg.2.count).sum ∧
  a.errors.length = (a.hypotheses.map fun kg => kg.2.errors.length).sum

/-! ## Concrete values used in witnesses and counterexamples -/

/-- A minimal valid entry with hypothesis id "A". -/
def entA : Json :=
  .obj (.cons "hypothesisId" (.str "A")
    (.cons "location" (.str "a") (.cons "message" (.str "1") .nil)))

/-- A minimal valid entry with hypothesis id "B"; its serialized line has
the same length as `entA`'s. -/
def entB : Json :=
  .obj (.cons "hypothesisId" (.str "B")
    (.cons "location" (.str "b") (.cons "message" (.str "2") .nil)))

/-- A minimal valid entry with hypothesis id "C". -/
def entC : Json :=
  .obj (.cons "hypothesisId" (.str "C")
    (.cons "location" (.str "c") (.cons "message" (.str "3") .nil)))

/-- A valid entry carrying the negative timestamp -5. -/
def entNegTs : Json :=
  .obj (.cons "location" (.str "l") (.cons "message" (.str "m")
    (.cons "hypothesisId" (.str "A") (.cons "timestamp" (.num (-5)) .nil))))

/-- A valid entry with no timestamp field. -/
def entNoTs : Json :=
  .obj (.cons "hypothesisId" (.str "A")
    (.cons "location" (.str "l") (.cons "message" (.str "m") .nil)))

/-- A valid entry whose `level` is the array `["error"]`: as a property
key it coerces to the string "error", but it is not strictly equal to
the string `'error'`. -/
def entArrLevel : Json :=
  .obj (.cons "hypothesisId" (.str "A") (.cons "location" (.str "l")
    (.cons "message" (.str "m") (.cons "timestamp" (.num 1)
      (.cons "level" (.arr (.cons (.str "error") .nil)) .nil)))))

/-- A valid entry with timestamp 5. -/
def entTs5 : Json :=
  .obj (.cons "hypothesisId" (.str "A") (.cons "location" (.str "l")
    (.cons "message" (.str "m") (.cons "timestamp" (.num 5) .nil))))

/-! ## Serialized lines: no raw newline, never blank -/

theorem digitChar_ne_nl (d : Nat) : digitChar d ≠ '\n' := by
  unfold digitChar
  repeat' split
  all_goals decide

theorem digitChar_not_ws (d : Nat) : (digitChar d).isWhitespace = false := by
  unfold digitChar
  repeat' split
  all_goals decide

theorem mem_natToCharsAux {c : Char} :
    ∀ fuel n : Nat, c ∈ natToCharsAux fuel n → ∃ d, c = digitChar d := by
  intro fuel
  induction fuel with
  | zero => intro n h; simp [natToCharsAux] at h
  | succ fuel ih =>
    intro n h
    simp only [natToCharsAux] at h
    split at h
    · simp at h
    · rcases List.mem_append.mp h with h1 | h1
      · exact ih _ h1
      · simp at h1
        exact ⟨n % 10, h1⟩

theorem mem_natToChars {c : Char} (n : Nat) (h : c ∈ natToChars n) :
    ∃ d, c = digitChar d := by
  unfold natToChars at h
  split at h
  · simp at h
    exact ⟨0, h⟩
  · exact mem_natToCharsAux _ _ h

theorem mem_intToChars {c : Char} (n : Int) (h : c ∈ intToChars n) :
    c = '-' ∨ ∃ d, c = digitChar d := by
  unfold intToChars at h
  split at h
  · rcases List.mem_cons.mp h with h1 | h1
    · exact Or.inl h1
    · exact Or.inr (mem_natToChars _ h1)
  · exact Or.inr (mem_natToChars _ h)

theorem escChar_no_nl (c : Char) : '\n' ∉ escChar c := by
  unfold escChar
  repeat' split
  all_goals try decide
  intro he
  rcases List.mem_singleton.mp he with rfl
  simp_all

theorem strLit_no_nl (s : String) : '\n' ∉ strLit s := by
  unfold strLit
  intro h
  rcases List.mem_cons.mp h with h1 | h1
  · exact absurd h1 (by decide)
  · rcases List.mem_append.mp h1 with h2 | h2
    · rcases List.mem_flatten.mp h2 with ⟨l, hl, hc⟩
      rcases List.mem_map.mp hl with ⟨c0, _, rfl⟩
      exact escChar_no_nl c0 hc
    · simp at h2

mutual
theorem stringify_no_nl : ∀ v : Json, '\n' ∉ stringify v
  | .null => by decide
  | .bool true => by decide
  | .bool false => by decide
  | .num n => by
    simp only [stringify]
    intro h
    rcases mem_intToChars n h with h1 | ⟨d, h1⟩
    · exact absurd h1 (by decide)
    · exact digitChar_ne_nl d h1.symm
  | .str s => strLit_no_nl s
  | .arr xs => by
    simp only [stringify]
    intro h
    rcases List.mem_cons.mp h with h1 | h1
    · exact absurd h1 (by decide)
    · rcases List.mem_append.mp h1 with h2 | h2
      · exact stringifyArr_no_nl xs h2
      · simp at h2
  | .obj fs => by
    simp only [stringify]
    intro h
    rcases List.mem_cons.mp h with h1 | h1
    · exact absurd h1 (by decide)
    · rcases List.mem_append.mp h1 with h2 | h2
      · exact stringifyObj_no_nl fs h2
      · simp at h2

theorem stringifyArr_no_nl : ∀ xs : JArr, '\n' ∉ stringifyArr xs
  | .nil => by simp [stringifyArr]
  | .cons x .nil => by
    simp only [stringifyArr]
    exact stringify_no_nl x
  | .cons x (.cons y tl) => by
    simp only [stringifyArr]
    intro h
    rcases List.mem_append.mp h with h1 | h1
    · exact stringify_no_nl x h1
    · rcases List.mem_cons.mp h1 with h2 | h2
      · exact absurd h2 (by decide)
      · exact stringifyArr_no_nl (.cons y tl) h2

theorem stringifyObj_no_nl : ∀ fs : JObj, '\n' ∉ stringifyObj fs
  | .nil => by simp [stringifyObj]
  | .cons k v .nil => by
    simp only [stringifyObj]
    intro h
    rcases List.mem_append.mp h with h1 | h1
    · exact strLit_no_nl k h1
    · rcases List.mem_cons.mp h1 with h2 | h2
      · exact absurd h2 (by decide)
      · exact stringify_no_nl v h2
  | .cons k v (.cons k2 v2 tl) => by
    simp only [stringifyObj]
    intro h
    rcases List.mem_append.mp h with h1 | h1
    · rcases List.mem_append.mp h1 with h2 | h2
      · exact strLit_no_nl k h2
      · rcases List.mem_cons.mp h2 with h3 | h3
        · exact absurd h3 (by decide)
        · exact stringify_no_nl v h3
    · rcases List.mem_cons.mp h1 with h2 | h2
      · exact absurd h2 (by decide)
      · exact stringifyObj_no_nl (.cons k2 v2 tl) h2
end

theorem natToChars_not_ws (n : Nat) : (natToChars n).all Char.isWhitespace = false := by
  unfold natToChars
  split
  · decide
  · rename_i hn
    simp only [natToCharsAux, if_neg hn, List.all_append]
    have h2 : (List.all [digitChar (n % 10)] Char.isWhitespace) = false := by
      simp [digitChar_not_ws]
    rw [h2, Bool.and_false]

theorem stringify_not_blank (v : Json) : (stringify v).all Char.isWhitespace = false := by
  cases v with
  | null => decide
  | bool b => cases b <;> decide
  | num n =>
    show (intToChars n).all _ = false
    unfold intToChars
    split
    · rw [List.all_cons]
      rw [show ('-').isWhitespace = false from rfl, Bool.false_and]
    · exact natToChars_not_ws _
  | str s =>
    show (strLit s).all _ = false
    unfold strLit
    rw [List.cons_append, List.all_cons]
    rw [show ('"').isWhitespace = false from rfl, Bool.false_and]
  | arr xs =>
    simp only [stringify]
    rw [List.cons_append, List.all_cons]
    rw [show ('[').isWhitespace = false from rfl, Bool.false_and]
  | obj fs =>
    simp only [stringify]
    rw [List.cons_append, List.all_cons]
    rw [show ('{').isWhitespace = false from rfl, Bool.false_and]

/-! ## Splitting file contents into lines -/

theorem splitNl_of_no_nl (l : List Char) (h : '\n' ∉ l) : splitNl l = [l] := by
  induction l with
  | nil => rfl
  | cons c rest ih =>
    have hc : ¬(c = '\n') := fun hce => h (hce ▸ List.mem_cons_self c rest)
    have hr : '\n' ∉ rest := fun hm => h (List.mem_cons_of_mem c hm)
    simp only [splitNl, if_neg hc]
    rw [ih hr]

theorem splitNl_append (l rest : List Char) (h : '\n' ∉ l) :
    splitNl (l ++ '\n' :: rest) = l :: splitNl rest := by
  induction l with
  | nil => simp [splitNl]
  | cons c tl ih =>
    have hc : ¬(c = '\n') := fun hce => h (hce ▸ List.mem_cons_self c tl)
    have htl : '\n' ∉ tl := fun hm => h (List.mem_cons_of_mem c hm)
    simp only [List.cons_append, splitNl, if_neg hc, List.append_eq]
    rw [ih htl]

theorem fileOf_cons (v : Json) (tl : List Json) :
    fileOf (v :: tl) = stringify v ++ '\n' :: fileOf tl := by
  simp [fileOf, lineOf]

theorem splitNl_fileOf (vs : List Json) :
    splitNl (fileOf vs) = vs.map stringify ++ [[]] := by
  induction vs with
  | nil => rfl
  | cons v tl ih =>
    rw [fileOf_cons, splitNl_append _ _ (stringify_no_nl v), ih]
    simp

theorem fileOf_append (a b : List Json) : fileOf (a ++ b) = fileOf a ++ fileOf b := by
  simp [fileOf]

theorem fileOf_drop (vs : List Json) (k : Nat) :
    (fileOf vs).drop (fileOf (vs.take k)).length = fileOf (vs.drop k) := by
  have hsplit : fileOf vs = fileOf (vs.take k) ++ fileOf (vs.drop k) := by
    rw [← fileOf_append, List.take_append_drop]
  rw [hsplit, List.drop_left]

theorem fileOf_length_lt (vs : List Json) (k : Nat) (h : k < vs.length) :
    (fileOf (vs.take k)).length < (fileOf vs).length := by
  have hsplit : fileOf vs = fileOf (vs.take k) ++ fileOf (vs.drop k) := by
    rw [← fileOf_append, List.take_append_drop]
  rw [hsplit, List.length_append]
  have h1 : 0 < (fileOf (vs.drop k)).length := by
    rcases hd : vs.drop k with _ | ⟨w, ws⟩
    · rw [List.drop_eq_nil_iff] at hd
      omega
    · rw [fileOf_cons]
      simp
  omega

theorem fileOf_length_le (vs : List Json) (k : Nat) :
    (fileOf (vs.take k)).length ≤ (fileOf vs).length := by
  have hsplit : fileOf vs = fileOf (vs.take k) ++ fileOf (vs.drop k) := by
    rw [← fileOf_append, List.take_append_drop]
  rw [hsplit, List.length_append]
  omega

/-! ## Tailer: behaviour of one detection cycle from a synced state -/

theorem processNewLines_stringify (ws : List Json)
    (hrt : ∀ v ∈ ws, jsonParse (stringify v) = some v) :
    processNewLines (ws.map stringify) none = ws.map TailEvent.entry := by
  induction ws with
  | nil => rfl
  | cons w tl ih =>
    have hw := hrt w (List.mem_cons_self w tl)
    have htl : ∀ v ∈ tl, jsonParse (stringify v) = some v :=
      fun v hv => hrt v (List.mem_cons_of_mem w hv)
    simp only [processNewLines, List.map_cons, List.filterMap_cons] at ih ⊢
    rw [stringify_not_blank w, hw] at *
    simp only [Bool.false_eq_true, if_false, filterTruthy, Bool.false_and] at *
    rw [ih htl]

theorem readNewContent_synced (vs : List Json) (k : Nat) (hk : k ≤ vs.length) :
    readNewContent (fileOf vs) (syncSt vs k) =
      ((vs.drop k).map stringify, syncSt vs vs.length) := by
  rcases Nat.lt_or_ge k vs.length with hlt | hge
  · have h2 : (fileOf (vs.take k)).length < (fileOf vs).length := fileOf_length_lt vs k hlt
    have h1 : ¬ ((fileOf vs).length < (fileOf (vs.take k)).length) := by omega
    simp only [readNewContent, syncSt, if_neg h1, if_pos h2, List.nil_append]
    rw [fileOf_drop, splitNl_fileOf, List.dropLast_concat, List.getLast?_concat]
    rw [List.take_length]
    rfl
  · have hk2 : k = vs.length := le_antisymm hk hge
    subst hk2
    have heq : vs.take vs.length = vs := List.take_length vs
    simp only [readNewContent, syncSt, heq]
    rw [if_neg (lt_irrefl _), if_neg (lt_irrefl _), List.drop_length]
    simp

theorem tailRun_append (filt : Option String) (a b : List TStep) (s : List Char × TailState) :
    tailRun filt (a ++ b) s =
      ((tailRun filt b (tailRun filt a s).1).1,
        (tailRun filt a s).2 ++ (tailRun filt b (tailRun filt a s).1).2) := by
  induction a generalizing s with
  | nil => simp [tailRun]
  | cons stp rest ih =>
    simp only [List.cons_append, tailRun, List.append_eq]
    rw [ih]
    simp [List.append_assoc]

theorem take_drop_chunk (vs A : List Json) (k k' : Nat) (h1 : k ≤ vs.length)
    (h2 : vs.length ≤ k') :
    ((vs ++ A).take k').drop k = vs.drop k ++ ((vs ++ A).take k').drop vs.length := by
  rw [List.take_append_eq_append_take, List.take_of_length_le h2]
  rw [List.drop_append_eq_append_drop, List.drop_append_eq_append_drop]
  rw [Nat.sub_eq_zero_of_le h1, List.drop_zero, List.drop_length, Nat.sub_self,
    List.drop_zero, List.nil_append]

theorem noTrunc_cons_elim {stp : TStep} {rest : List TStep}
    (h : noTrunc (stp :: rest) = true) : noTrunc rest = true := by
  simp only [noTrunc, List.all_cons, Bool.and_eq_true] at h
  exact h.2

/-- The master invariant of a truncation-free tailer run started in sync:
the run ends in sync at some `k'`, having emitted exactly the entries
between positions `k` and `k'` of the accumulated append sequence, in
order.  The round-trip hypothesis says `JSON.parse` recovers each
appended entry from its serialized line. -/
theorem tailRun_sync : ∀ steps : List TStep, noTrunc steps = true →
    ∀ (vs : List Json) (k : Nat), k ≤ vs.length →
    (∀ v ∈ vs ++ appendsOf steps, jsonParse (stringify v) = some v) →
    ∃ k', k ≤ k' ∧ k' ≤ (vs ++ appendsOf steps).length ∧
      tailRun none steps (fileOf vs, syncSt vs k) =
        ((fileOf (vs ++ appendsOf steps), syncSt (vs ++ appendsOf steps) k'),
         (((vs ++ appendsOf steps).take k').drop k).map TailEvent.entry) := by
  intro steps
  induction steps with
  | nil =>
    intro _ vs k hk _
    refine ⟨k, le_refl k, ?_, ?_⟩
    · simpa [appendsOf] using hk
    · have hdk : ((vs ++ appendsOf []).take k).drop k = [] := by
        apply List.drop_eq_nil_of_le
        rw [List.length_take]
        omega
      simp [tailRun, appendsOf, hdk]
  | cons stp rest ih =>
    intro hnt vs k hk hrt
    have hnt' : noTrunc rest = true := noTrunc_cons_elim hnt
    cases stp with
    | trunc => simp [noTrunc, List.all_cons] at hnt
    | app v =>
      have happ : appendsOf (TStep.app v :: rest) = v :: appendsOf rest := by
        simp [appendsOf]
      have hassoc : (vs ++ [v]) ++ appendsOf rest = vs ++ appendsOf (TStep.app v :: rest) := by
        rw [happ]
        simp
      have hfile : fileOf vs ++ lineOf v = fileOf (vs ++ [v]) := by
        rw [fileOf_append]
        simp [fileOf]
      have hsync : syncSt vs k = syncSt (vs ++ [v]) k := by
        unfold syncSt
        rw [List.take_append_of_le_length hk]
      have hrt' : ∀ w ∈ (vs ++ [v]) ++ appendsOf rest, jsonParse (stringify w) = some w := by
        intro w hw
        apply hrt w
        rw [hassoc] at hw
        exact hw
      obtain ⟨k', hk1, hk2, heq⟩ := ih hnt' (vs ++ [v]) k
        (by rw [List.length_append]; omega) hrt'
      refine ⟨k', hk1, ?_, ?_⟩
      · rw [← hassoc]
        exact hk2
      · simp only [tailRun, tailStep]
        rw [hfile, hsync, heq, hassoc]
        simp
    | cyc =>
      have hcyc : appendsOf (TStep.cyc :: rest) = appendsOf rest := by
        simp [appendsOf]
      have hrtvs : ∀ w ∈ vs.drop k, jsonParse (stringify w) = some w :=
        fun w hw => hrt w (List.mem_append_left _ (List.mem_of_mem_drop hw))
      have hrt2 : ∀ w ∈ vs ++ appendsOf rest, jsonParse (stringify w) = some w := by
        intro w hw
        apply hrt w
        rw [hcyc]
        exact hw
      obtain ⟨k', hk1, hk2, heq⟩ := ih hnt' vs vs.length (le_refl _) hrt2
      refine ⟨k', le_trans hk hk1, by rw [hcyc]; exact hk2, ?_⟩
      simp only [tailRun, tailStep]
      rw [readNewContent_synced vs k hk, heq, hcyc]
      rw [processNewLines_stringify _ hrtvs]
      rw [take_drop_chunk vs (appendsOf rest) k k' hk hk1, List.map_append]

/-- A truncation-free run from the empty store followed by one more
detection cycle surfaces exactly the appended entries, in order. -/
theorem tailRun_from_empty (steps : List TStep) (hnt : noTrunc steps = true)
    (hrt : ∀ v ∈ appendsOf steps, jsonParse (stringify v) = some v) :
    (tailRun none (steps ++ [TStep.cyc]) ([], ⟨0, []⟩)).2 =
      (appendsOf steps).map TailEvent.entry := by
  have h0 : (([], ⟨0, []⟩) : List Char × TailState) = (fileOf [], syncSt [] 0) := rfl
  rw [h0, tailRun_append]
  obtain ⟨k', hk1, hk2, heq⟩ := tailRun_sync steps hnt [] 0 (by simp)
    (by simpa using hrt)
  simp only [List.nil_append] at hk2 heq
  rw [heq]
  simp only [tailRun, tailStep]
  rw [readNewContent_synced (appendsOf steps) k' hk2]
  rw [processNewLines_stringify _ (fun v hv => hrt v (List.mem_of_mem_drop hv))]
  rw [List.drop_zero]
  simp only [List.append_nil]
  rw [← List.map_append, List.take_append_drop]

/-- Truncation followed by a detection cycle that observes it resets the
tailer to the start of the (now empty) store without emitting anything. -/
theorem tailRun_trunc_cyc (f : List Char) (L : Nat) :
    tailRun none [TStep.trunc, TStep.cyc] (f, ⟨L, []⟩) = (([], ⟨0, []⟩), []) := by
  simp only [tailRun, tailStep, readNewContent, List.length_nil]
  rcases Nat.eq_zero_or_pos L with h0 | hpos
  · subst h0
    simp [processNewLines]
  · rw [if_pos hpos]
    simp [processNewLines]

/-! ## Analyzer lemmas -/

theorem jsLt_num (a b : Int) : jsLt (.num a) (.num b) = decide (a < b) := rfl

theorem jsGt_num (a b : Int) : jsGt (.num a) (.num b) = decide (b < a) := rfl

theorem jsLe_num (a b : Int) : jsLe (.num a) (.num b) = decide (a ≤ b) := rfl

theorem analyzeLoop_clock_irrelevant (filt : Option String) (c1 c2 : Nat → Int) :
    ∀ (entries : List Json) (a : Analysis) (n1 n2 : Nat),
    (∀ v ∈ entries, truthyOpt (getField v "timestamp") = true) →
    (analyzeLoop filt c1 entries a n1).1 = (analyzeLoop filt c2 entries a n2).1 := by
  intro entries
  induction entries with
  | nil => intro a n1 n2 _; rfl
  | cons e rest ih =>
    intro a n1 n2 h
    have he := h e (List.mem_cons_self e rest)
    have hrest : ∀ v ∈ rest, truthyOpt (getField v "timestamp") = true :=
      fun v hv => h v (List.mem_cons_of_mem e hv)
    simp only [analyzeLoop]
    simp only [he, eq_self_iff_true, if_true]
    split
    · exact ih a n1 n2 hrest
    · exact ih _ n1 n2 hrest

theorem analyzeEntries_clock_irrelevant (entries : List Json) (filt : Option String)
    (c1 c2 : Nat → Int) (h : ∀ v ∈ entries, truthyOpt (getField v "timestamp") = true) :
    analyzeEntries entries filt c1 = analyzeEntries entries filt c2 := by
  unfold analyzeEntries
  rw [analyzeLoop_clock_irrelevant filt c1 c2 entries _ 0 0 h]

theorem jsKey_str (s : String) : jsKey (some (.str s)) = s := rfl

theorem hypNeq_false {f : Option Json} {x : String} (h : hypNeq f (some x) = false) :
    f = some (.str x) := by
  rcases f with _ | v
  · simp [hypNeq] at h
  · cases v <;> simp_all [hypNeq]

theorem sumSnd_bump (m : List (String × Nat)) (k : String) :
    sumSnd (bump m k) = sumSnd m + 1 := by
  induction m with
  | nil => simp [bump, sumSnd]
  | cons hd tl ih =>
    rcases hd with ⟨k0, n⟩
    simp only [bump]
    split
    · simp [sumSnd]
      omega
    · simp only [sumSnd, List.map_cons, List.sum_cons] at ih ⊢
      omega

theorem lookupCount_bump (m : List (String × Nat)) (k k' : String) :
    lookupCount (bump m k) k' = lookupCount m k' + (if k = k' then 1 else 0) := by
  induction m with
  | nil =>
    simp only [bump, lookupCount]
    by_cases h : k = k' <;> simp [h, lookupCount]
  | cons hd tl ih =>
    rcases hd with ⟨k0, n⟩
    simp only [bump]
    by_cases h0 : k0 = k
    · subst h0
      rw [if_pos rfl]
      simp only [lookupCount]
      by_cases h1 : k0 = k' <;> simp [h1, lookupCount]
    · rw [if_neg h0]
      simp only [lookupCount]
      by_cases h1 : k0 = k'
      · rw [if_pos h1, if_pos h1]
        have hkk : ¬ (k = k') := fun hh => h0 (h1.trans hh.symm)
        rw [if_neg hkk]
        omega
      · rw [if_neg h1, if_neg h1, ih]

theorem groupCount_updateHyps (gs : List (String × HypGroup)) (key : String)
    (g0 : HypGroup) (f : HypGroup → HypGroup) (k : String)
    (hf : ∀ g, (f g).count = g.count + 1) (hg0 : g0.count = 0) :
    groupCount (updateHyps gs key g0 f) k =
      groupCount gs k + (if key = k then 1 else 0) := by
  induction gs with
  | nil =>
    simp only [updateHyps, groupCount]
    by_cases h : key = k
    · rw [if_pos h, if_pos h, hf, hg0]
    · rw [if_neg h, if_neg h]
  | cons hd tl ih =>
    rcases hd with ⟨k0, g⟩
    simp only [updateHyps]
    by_cases h0 : k0 = key
    · rw [if_pos h0]
      simp only [groupCount]
      by_cases h1 : k0 = k
      · rw [if_pos h1, if_pos h1, hf]
        have hkey : key = k := by rw [← h0]; exact h1
        rw [if_pos hkey]
      · rw [if_neg h1, if_neg h1]
        have hkey : ¬ (key = k) := fun hh => h1 (h0.trans hh)
        rw [if_neg hkey]
        omega
    · rw [if_neg h0]
      simp only [groupCount]
      by_cases h1 : k0 = k
      · rw [if_pos h1, if_pos h1]
        have hkey : ¬ (key = k) := fun hh => h0 (h1.trans hh.symm)
        rw [if_neg hkey]
        omega
      · rw [if_neg h1, if_neg h1, ih]

theorem stepGroup_count (locKey levelKey : String) (isErr : Bool) (ts : Json)
    (e : ErrorInfo) (g : HypGroup) :
    (stepGroup locKey levelKey isErr ts e g).count = g.count + 1 := rfl

theorem newGroup_count (ts : Json) : (newGroup ts).count = 0 := rfl

theorem analyzeLoop_total (filt : Option String) (clock : Nat → Int) :
    ∀ (entries : List Json) (a : Analysis) (n : Nat),
    (analyzeLoop filt clock entries a n).1.total =
      a.total + entries.countP
        (fun v => !(filterTruthy filt && hypNeq (getField v "hypothesisId") filt)) := by
  intro entries
  induction entries with
  | nil => intro a n; simp [analyzeLoop]
  | cons e rest ih =>
    intro a n
    simp only [analyzeLoop, List.countP_cons]
    split
    · rename_i hcond
      rw [ih]
      have hp : (!(filterTruthy filt && hypNeq (getField e "hypothesisId") filt)) = false := by
        rw [hcond]
        rfl
      rw [hp]
      simp
    · rename_i hcond
      rw [ih]
      have hp : (!(filterTruthy filt && hypNeq (getField e "hypothesisId") filt)) = true := by
        rcases hb : (filterTruthy filt && hypNeq (getField e "hypothesisId") filt) with _ | _
        · rfl
        · exact absurd hb hcond
      rw [hp]
      simp only [if_pos]
      omega

theorem analyzeLoop_groupCount (clock : Nat → Int) :
    ∀ (entries : List Json) (a : Analysis) (n : Nat) (k : String),
    groupCount (analyzeLoop none clock entries a n).1.hypotheses k =
      groupCount a.hypotheses k +
        entries.countP (fun v => jsKey (getField v "hypothesisId") = k) := by
  intro entries
  induction entries with
  | nil => intro a n k; simp [analyzeLoop]
  | cons e rest ih =>
    intro a n k
    have hfil : (filterTruthy none && hypNeq (getField e "hypothesisId") none) = false := rfl
    simp only [analyzeLoop, hfil, Bool.false_eq_true, if_false, List.countP_cons]
    rw [ih]
    have hgc :
        groupCount
          (updateHyps a.hypotheses (jsKey (getField e "hypothesisId"))
            (newGroup (if truthyOpt (getField e "timestamp") = true then
                (getField e "timestamp").getD Json.null
              else Json.num (clock n)))
            (stepGroup (jsKey (getField e "location"))
              (jsToString (if truthyOpt (getField e "level") = true then
                  (getField e "level").getD Json.null
                else Json.str "info"))
              (strictEqStr (if truthyOpt (getField e "level") = true then
                  (getField e "level").getD Json.null
                else Json.str "info") "error")
              (if truthyOpt (getField e "timestamp") = true then
                (getField e "timestamp").getD Json.null
              else Json.num (clock n))
              ⟨(if truthyOpt (getField e "timestamp") = true then
                  (getField e "timestamp").getD Json.null
                else Json.num (clock n)),
                getField e "location", getField e "message", getField e "data"⟩)) k =
        groupCount a.hypotheses k +
          (if jsKey (getField e "hypothesisId") = k then 1 else 0) :=
      groupCount_updateHyps _ _ _ _ _ (fun g => rfl) rfl
    rw [hgc]
    simp only [decide_eq_true_eq]
    omega

theorem updateHyps_keys {x : String} (gs : List (String × HypGroup)) (key : String)
    (g0 : HypGroup) (f : HypGroup → HypGroup) (hall : ∀ kg ∈ gs, kg.1 = x)
    (hkey : key = x) : ∀ kg ∈ updateHyps gs key g0 f, kg.1 = x := by
  induction gs with
  | nil =>
    intro kg hkg
    simp only [updateHyps, List.mem_singleton] at hkg
    rw [hkg, hkey]
  | cons hd tl ih =>
    rcases hd with ⟨k0, g⟩
    intro kg hkg
    simp only [updateHyps] at hkg
    split at hkg
    · rcases List.mem_cons.mp hkg with h1 | h1
      · rw [h1]
        exact hall (k0, g) (List.mem_cons_self _ _)
      · exact hall kg (List.mem_cons_of_mem _ h1)
    · rcases List.mem_cons.mp hkg with h1 | h1
      · rw [h1]
        exact hall (k0, g) (List.mem_cons_self _ _)
      · exact ih (fun kg2 h2 => hall kg2 (List.mem_cons_of_mem _ h2)) kg h1

theorem filterTruthy_of_ne {x : String} (hx : x ≠ "") : filterTruthy (some x) = true := by
  simp [filterTruthy, hx]

theorem kept_hyp_eq {x : String} {e : Json} (hx : x ≠ "")
    (hcond : ¬ ((filterTruthy (some x) && hypNeq (getField e "hypothesisId") (some x)) = true)) :
    getField e "hypothesisId" = some (.str x) := by
  apply hypNeq_false
  rcases hb : hypNeq (getField e "hypothesisId") (some x) with _ | _
  · rfl
  · exact absurd (by rw [filterTruthy_of_ne hx, hb]; rfl) hcond

theorem analyzeLoop_keys (x : String) (clock : Nat → Int) :
    ∀ (entries : List Json) (a : Analysis) (n : Nat),
    x ≠ "" →
    (∀ kg ∈ a.hypotheses, kg.1 = x) →
    ∀ kg ∈ (analyzeLoop (some x) clock entries a n).1.hypotheses, kg.1 = x := by
  intro entries
  induction entries with
  | nil => intro a n _ hall; exact hall
  | cons e rest ih =>
    intro a n hx hall
    simp only [analyzeLoop]
    split
    · exact ih a n hx hall
    · rename_i hcond
      apply ih _ _ hx
      apply updateHyps_keys _ _ _ _ hall
      rw [kept_hyp_eq hx hcond, jsKey_str]

theorem mem_ite_append_singleton {α : Type} {c : Prop} [Decidable c] {l : List α}
    {x y : α} (h : y ∈ if c then l ++ [x] else l) : y ∈ l ∨ y = x := by
  split at h
  · rcases List.mem_append.mp h with h1 | h1
    · exact Or.inl h1
    · exact Or.inr (List.mem_singleton.mp h1)
  · exact Or.inl h

theorem analyzeLoop_errorsHyp (x : String) (clock : Nat → Int) :
    ∀ (entries : List Json) (a : Analysis) (n : Nat),
    x ≠ "" →
    (∀ er ∈ a.errors, er.hypothesisId = some (.str x)) →
    ∀ er ∈ (analyzeLoop (some x) clock entries a n).1.errors,
      er.hypothesisId = some (.str x) := by
  intro entries
  induction entries with
  | nil => intro a n _ hall; exact hall
  | cons e rest ih =>
    intro a n hx hall
    simp only [analyzeLoop]
    split
    · exact ih a n hx hall
    · rename_i hcond
      apply ih _ _ hx
      intro er her
      rcases mem_ite_append_singleton her with h1 | h1
      · exact hall er h1
      · rw [h1]
        exact kept_hyp_eq hx hcond

/-! ## Analyzer report invariants -/

theorem goodEntry_ts {v : Json} (h : goodEntry v = true)
    (ht : truthyOpt (getField v "timestamp") = true) :
    ∃ t : Int, getField v "timestamp" = some (.num t) := by
  unfold goodEntry at h
  rcases hf : getField v "timestamp" with _ | w
  · rw [hf] at ht
    simp [truthyOpt] at ht
  · rw [hf] at h ht
    simp only [Bool.and_eq_true] at h
    rcases h with ⟨h1, _⟩
    have htw : truthy w = true := ht
    rw [htw] at h1
    simp only [Bool.not_true, Bool.false_or] at h1
    cases w <;> simp [isNum] at h1 ⊢

theorem goodEntry_level {v : Json} (h : goodEntry v = true)
    (ht : truthyOpt (getField v "level") = true) :
    ∃ s, getField v "level" = some (.str s) := by
  unfold goodEntry at h
  rcases hf : getField v "level" with _ | w
  · rw [hf] at ht
    simp [truthyOpt] at ht
  · rw [hf] at h ht
    simp only [Bool.and_eq_true] at h
    rcases h with ⟨_, h2⟩
    have htw : truthy w = true := ht
    rw [htw] at h2
    simp only [Bool.not_true, Bool.false_or] at h2
    cases w <;> simp [isStr] at h2 ⊢

theorem jsLe_of_nums {a b : Json} (h : ∃ x y : Int, a = .num x ∧ b = .num y ∧ x ≤ y) :
    jsLe a b = true := by
  rcases h with ⟨x, y, rfl, rfl, hxy⟩
  rw [jsLe_num]
  exact decide_eq_true hxy

theorem sum_counts_updateHyps (gs : List (String × HypGroup)) (key : String)
    (g0 : HypGroup) (f : HypGroup → HypGroup)
    (hf : ∀ g, (f g).count = g.count + 1) (hg0 : g0.count = 0) :
    ((updateHyps gs key g0 f).map (fun kg => kg.2.count)).sum =
      ((gs.map (fun kg => kg.2.count)).sum) + 1 := by
  induction gs with
  | nil => simp [updateHyps, hf, hg0]
  | cons hd tl ih =>
    rcases hd with ⟨k0, g⟩
    simp only [updateHyps]
    split
    · simp only [List.map_cons, List.sum_cons, hf]
      omega
    · simp only [List.map_cons, List.sum_cons, ih]
      omega

theorem sum_errlen_updateHyps (gs : List (String × HypGroup)) (key : String)
    (g0 : HypGroup) (f : HypGroup → HypGroup) (d : Nat)
    (hf : ∀ g, (f g).errors.length = g.errors.length + d) (hg0 : g0.errors = []) :
    ((updateHyps gs key g0 f).map (fun kg => kg.2.errors.length)).sum =
      ((gs.map (fun kg => kg.2.errors.length)).sum) + d := by
  induction gs with
  | nil => simp [updateHyps, hf, hg0]
  | cons hd tl ih =>
    rcases hd with ⟨k0, g⟩
    simp only [updateHyps]
    split
    · simp only [List.map_cons, List.sum_cons, hf]
      omega
    · simp only [List.map_cons, List.sum_cons, ih]
      omega

theorem stepGroup_inv (locKey levelKey : String) (isErr : Bool) (t : Int)
    (e : ErrorInfo) (g : HypGroup) (hg : GroupInv g)
    (herr : isErr = decide (levelKey = "error")) :
    GroupInv (stepGroup locKey levelKey isErr (.num t) e g) := by
  obtain ⟨h1, h2, h3, ⟨x, y, hx, hy, hxy⟩, _⟩ := hg
  have h4 : ∃ x' y' : Int,
      (stepGroup locKey levelKey isErr (.num t) e g).firstTimestamp = .num x' ∧
      (stepGroup locKey levelKey isErr (.num t) e g).lastTimestamp = .num y' ∧
      x' ≤ y' := by
    refine ⟨if t < x then t else x, if y < t then t else y, ?_, ?_, ?_⟩
    · show (if jsLt (.num t) g.firstTimestamp = true then Json.num t else g.firstTimestamp) = _
      rw [hx, jsLt_num]
      by_cases h : t < x <;> simp [h]
    · show (if jsGt (.num t) g.lastTimestamp = true then Json.num t else g.lastTimestamp) = _
      rw [hy, jsGt_num]
      by_cases h : y < t <;> simp [h]
    · split_ifs <;> omega
  refine ⟨?_, ?_, ?_, h4, jsLe_of_nums h4⟩
  · show g.count + 1 = sumSnd (bump g.levels levelKey)
    rw [sumSnd_bump, h1]
  · show g.count + 1 = sumSnd (bump g.locations locKey)
    rw [sumSnd_bump, h2]
  · show (if isErr = true then g.errors ++ [e] else g.errors).length =
      lookupCount (bump g.levels levelKey) "error"
    rw [lookupCount_bump, ← h3]
    rcases hb : isErr with _ | _
    · rw [hb] at herr
      have : ¬ (levelKey = "error") := by
        intro hk
        rw [hk] at herr
        simp at herr
      rw [if_neg (by simp : ¬ (false = true)), if_neg this]
      omega
    · rw [hb] at herr
      have : levelKey = "error" := by
        have := herr.symm
        simpa using this
      rw [if_pos rfl, if_pos this]
      simp

theorem newGroup_inv (t : Int) : GroupInv (newGroup (.num t)) := by
  refine ⟨rfl, rfl, rfl, ⟨t, t, rfl, rfl, le_refl t⟩, ?_⟩
  show jsLe (.num t) (.num t) = true
  rw [jsLe_num]
  simp

theorem updateHyps_inv (gs : List (String × HypGroup)) (key : String)
    (g0 : HypGroup) (f : HypGroup → HypGroup) (hall : ∀ kg ∈ gs, GroupInv kg.2)
    (hf : ∀ g, GroupInv g → GroupInv (f g)) (hg0 : GroupInv g0) :
    ∀ kg ∈ updateHyps gs key g0 f, GroupInv kg.2 := by
  induction gs with
  | nil =>
    intro kg hkg
    simp only [updateHyps, List.mem_singleton] at hkg
    rw [hkg]
    exact hf g0 hg0
  | cons hd tl ih =>
    rcases hd with ⟨k0, g⟩
    intro kg hkg
    simp only [updateHyps] at hkg
    split at hkg
    · rcases List.mem_cons.mp hkg with h1 | h1
      · rw [h1]
        exact hf g (hall (k0, g) (List.mem_cons_self _ _))
      · exact hall kg (List.mem_cons_of_mem _ h1)
    · rcases List.mem_cons.mp hkg with h1 | h1
      · rw [h1]
        exact hall (k0, g) (List.mem_cons_self _ _)
      · exact ih (fun kg2 h2 => hall kg2 (List.mem_cons_of_mem _ h2)) kg h1

theorem analyzeStep_inv (a : Analysis) (tr : TimeRange) (key locKey : String)
    (s : String) (t : Int) (e : ErrorInfo) (ge : GlobalError) (ha : AnalysisInv a) :
    AnalysisInv
      { total := a.total + 1
        timeRange := tr
        hypotheses := updateHyps a.hypotheses key (newGroup (.num t))
          (stepGroup locKey (jsToString (.str s)) (strictEqStr (.str s) "error") (.num t) e)
        errors := if strictEqStr (.str s) "error" = true then a.errors ++ [ge]
          else a.errors } := by
  obtain ⟨hgr, htot, herr⟩ := ha
  have hstep : ∀ g, GroupInv g →
      GroupInv (stepGroup locKey (jsToString (.str s)) (strictEqStr (.str s) "error")
        (.num t) e g) :=
    fun g hg => stepGroup_inv _ _ _ _ _ _ hg rfl
  refine ⟨?_, ?_, ?_⟩
  · exact updateHyps_inv _ _ _ _ hgr hstep (newGroup_inv t)
  · show a.total + 1 = _
    rw [sum_counts_updateHyps _ _ _ _ (fun g => rfl) rfl, htot]
  · show (if strictEqStr (.str s) "error" = true then a.errors ++ [ge]
        else a.errors).length = _
    rw [sum_errlen_updateHyps _ _ _ _
      (if strictEqStr (.str s) "error" = true then 1 else 0)
      (fun g => by
        show (if strictEqStr (.str s) "error" = true then g.errors ++ [e]
          else g.errors).length = _
        split <;> simp) rfl, ← herr]
    split <;> simp

theorem analyzeLoop_inv (filt : Option String) (clock : Nat → Int) :
    ∀ (entries : List Json) (a : Analysis) (n : Nat),
    (∀ v ∈ entries, goodEntry v = true) → AnalysisInv a →
    AnalysisInv (analyzeLoop filt clock entries a n).1 := by
  intro entries
  induction entries with
  | nil => intro a n _ ha; exact ha
  | cons e rest ih =>
    intro a n h ha
    have hgood := h e (List.mem_cons_self e rest)
    have hrest : ∀ v ∈ rest, goodEntry v = true :=
      fun v hv => h v (List.mem_cons_of_mem e hv)
    simp only [analyzeLoop]
    rcases hts : truthyOpt (getField e "timestamp") with _ | _
    · rcases hlv : truthyOpt (getField e "level") with _ | _
      · simp only [hts, hlv, Bool.false_eq_true, if_false]
        split
        · exact ih a n hrest ha
        · exact ih _ _ hrest (analyzeStep_inv a _ _ _ "info" (clock n) _ _ ha)
      · obtain ⟨s, hlf⟩ := goodEntry_level hgood hlv
        simp only [hts, hlv, Bool.false_eq_true, if_false, eq_self_iff_true, if_true,
          hlf, Option.getD_some]
        split
        · exact ih a n hrest ha
        · exact ih _ _ hrest (analyzeStep_inv a _ _ _ s (clock n) _ _ ha)
    · obtain ⟨t, htf⟩ := goodEntry_ts hgood hts
      rcases hlv : truthyOpt (getField e "level") with _ | _
      · simp only [hts, hlv, Bool.false_eq_true, if_false, eq_self_iff_true, if_true,
          htf, Option.getD_some]
        split
        · exact ih a n hrest ha
        · exact ih _ _ hrest (analyzeStep_inv a _ _ _ "info" t _ _ ha)
      · obtain ⟨s, hlf⟩ := goodEntry_level hgood hlv
        simp only [hts, hlv, eq_self_iff_true, if_true, htf, hlf, Option.getD_some]
        split
        · exact ih a n hrest ha
        · exact ih _ _ hrest (analyzeStep_inv a _ _ _ s t _ _ ha)

theorem analyzeEntries_inv (entries : List Json) (filt : Option String)
    (clock : Nat → Int) (h : ∀ v ∈ entries, goodEntry v = true) :
    AnalysisInv (analyzeEntries entries filt clock) := by
  unfold analyzeEntries
  have h0 : AnalysisInv ⟨0, ⟨none, none, some 0⟩, [], []⟩ := by
    refine ⟨?_, rfl, rfl⟩
    intro kg hkg
    simp at hkg
  have hmain := analyzeLoop_inv filt clock entries _ 0 h h0
  dsimp only
  split
  · exact hmain
  · exact hmain

/-! ## Collector lemmas -/

theorem bool_eq_true_of_not_not {b : Bool} (h : ¬ ((!b) = true)) : b = true := by
  rcases hb : b with _ | _
  · exact absurd (by rw [hb]; rfl) h
  · rfl

theorem validateEntry_obj {v : Json} (h : validateEntry v = none) : ∃ fs, v = .obj fs := by
  cases v with
  | obj fs => exact ⟨fs, rfl⟩
  | null => simp [validateEntry, typeofObject, truthy] at h
  | bool b => simp [validateEntry, typeofObject, truthy] at h
  | num n => simp [validateEntry, typeofObject, truthy] at h
  | str s => simp [validateEntry, typeofObject, truthy] at h
  | arr xs => simp [validateEntry, typeofObject, truthy, getField, truthyOpt, isStrOpt] at h

theorem validateEntry_fields {v : Json} (h : validateEntry v = none) :
    (truthyOpt (getField v "location") && isStrOpt (getField v "location")) = true ∧
    (truthyOpt (getField v "message") && isStrOpt (getField v "message")) = true ∧
    (truthyOpt (getField v "hypothesisId") && isStrOpt (getField v "hypothesisId")) = true := by
  unfold validateEntry at h
  split_ifs at h with h1 h2 h3 h4
  exact ⟨bool_eq_true_of_not_not h2, bool_eq_true_of_not_not h3,
    bool_eq_true_of_not_not h4⟩

theorem findField_setFieldObj_self : ∀ (fs : JObj) (k : String) (x : Json),
    findField (setFieldObj fs k x) k = some x
  | .nil, k, x => by simp [setFieldObj, findField]
  | .cons k0 v0 tl, k, x => by
    simp only [setFieldObj]
    split
    · rename_i h
      simp [findField, h]
    · rename_i h
      simp only [findField, if_neg h]
      exact findField_setFieldObj_self tl k x

theorem findField_setFieldObj_ne : ∀ (fs : JObj) (k : String) (x : Json) (k' : String),
    k' ≠ k → findField (setFieldObj fs k x) k' = findField fs k'
  | .nil, k, x, k', hne => by
    simp only [setFieldObj, findField]
    rw [if_neg (fun hh => hne hh.symm)]
  | .cons k0 v0 tl, k, x, k', hne => by
    simp only [setFieldObj]
    split
    · rename_i h
      subst h
      simp only [findField]
      rw [if_neg (fun hh => hne hh.symm), if_neg (fun hh => hne hh.symm)]
    · simp only [findField]
      split
      · rfl
      · exact findField_setFieldObj_ne tl k x k' hne

theorem writeLogEntry_kept {v : Json} (now : Int)
    (h : truthyOpt (getField v "timestamp") = true) : writeLogEntry v now = v := by
  unfold writeLogEntry
  rw [h]
  rfl

theorem writeLogEntry_other {v : Json} (now : Int) (f : String)
    (hobj : ∃ fs, v = .obj fs) (hf : f ≠ "timestamp") :
    getField (writeLogEntry v now) f = getField v f := by
  obtain ⟨fs, rfl⟩ := hobj
  unfold writeLogEntry
  split
  · show getField (setField (.obj fs) "timestamp" (.num now)) f = _
    simp only [setField, getField]
    exact findField_setFieldObj_ne fs _ _ f hf
  · rfl

theorem writeLogEntry_default {v : Json} (now : Int)
    (hobj : ∃ fs, v = .obj fs) (h : truthyOpt (getField v "timestamp") = false) :
    getField (writeLogEntry v now) "timestamp" = some (.num now) := by
  obtain ⟨fs, rfl⟩ := hobj
  unfold writeLogEntry
  rw [h]
  show getField (setField (.obj fs) "timestamp" (.num now)) "timestamp" = _
  simp only [setField, getField]
  exact findField_setFieldObj_self fs _ _

theorem handleIngest_invalid (store : Store) (v : Json) (now : Int) (appendOk : Bool)
    (h : validateEntry v ≠ none) : handleIngest store (some v) now appendOk = (400, store) := by
  rcases hv : validateEntry v with _ | err
  · exact absurd hv h
  · simp [handleIngest, hv]

theorem handleIngest_valid (store : Store) (v : Json) (now : Int)
    (h : validateEntry v = none) :
    handleIngest store (some v) now true = (200, store ++ [.ok (writeLogEntry v now)]) := by
  simp [handleIngest, h]

theorem handleIngest_appendFail (store : Store) (v : Json) (now : Int)
    (h : validateEntry v = none) :
    handleIngest store (some v) now false = (400, store) := by
  simp [handleIngest, h]

theorem validateEntry_some_of_badstr {v : Json}
    (h : isStrOpt (getField v "location") = false ∨
      isStrOpt (getField v "message") = false ∨
      isStrOpt (getField v "hypothesisId") = false) :
    validateEntry v ≠ none := by
  intro hv
  obtain ⟨h1, h2, h3⟩ := validateEntry_fields hv
  rw [Bool.and_eq_true] at h1 h2 h3
  rcases h with h | h | h
  · rw [h1.2] at h
    exact Bool.noConfusion h
  · rw [h2.2] at h
    exact Bool.noConfusion h
  · rw [h3.2] at h
    exact Bool.noConfusion h

theorem validateEntry_some_of_empty {v : Json}
    (h : getField v "location" = some (.str "") ∨
      getField v "message" = some (.str "") ∨
      getField v "hypothesisId" = some (.str "")) :
    validateEntry v ≠ none := by
  intro hv
  obtain ⟨h1, h2, h3⟩ := validateEntry_fields hv
  rw [Bool.and_eq_true] at h1 h2 h3
  rcases h with h | h | h
  · rw [h] at h1
    exact Bool.noConfusion h1.1
  · rw [h] at h2
    exact Bool.noConfusion h2.1
  · rw [h] at h3
    exact Bool.noConfusion h3.1

theorem analyzeEntries_proj (entries : List Json) (filt : Option String)
    (clock : Nat → Int) :
    (analyzeEntries entries filt clock).hypotheses =
      (analyzeLoop filt clock entries ⟨0, ⟨none, none, some 0⟩, [], []⟩ 0).1.hypotheses ∧
    (analyzeEntries entries filt clock).total =
      (analyzeLoop filt clock entries ⟨0, ⟨none, none, some 0⟩, [], []⟩ 0).1.total ∧
    (analyzeEntries entries filt clock).errors =
      (analyzeLoop filt clock entries ⟨0, ⟨none, none, some 0⟩, [], []⟩ 0).1.errors := by
  unfold analyzeEntries
  dsimp only
  split
  · exact ⟨rfl, rfl, rfl⟩
  · exact ⟨rfl, rfl, rfl⟩

/-! # The claims -/

/-- C1, counterexample: the claim says every accepted entry is stored with
a timestamp that is a positive integer.  `entNegTs` submits the truthy
timestamp -5; the request is accepted (200) and the entry is stored
verbatim, so the stored timestamp is -5, which is not positive. -/
theorem ingest_positive_timestamp_cex :
    handleIngest [] (some entNegTs) 7 true = (200, [StoreLine.ok entNegTs]) ∧
    getField entNegTs "timestamp" = some (.num (-5)) ∧
    ¬ (0 < (-5 : Int)) :=
  ⟨rfl, rfl, by decide⟩

/-- C1, amended: every entry accepted by POST /ingest appends exactly one
line to the store, which parses to an object agreeing with the submission
on every field other than timestamp (in particular location, hypothesisId,
message, data and level); the stored timestamp is present, and is the
submitted timestamp when that was truthy and the server's current time
otherwise. -/
theorem ingest_persists_entry (store : Store) (v : Json) (now : Int)
    (hv : validateEntry v = none) :
    handleIngest store (some v) now true =
      (200, store ++ [StoreLine.ok (writeLogEntry v now)]) ∧
    (∀ f, f ≠ "timestamp" → getField (writeLogEntry v now) f = getField v f) ∧
    (truthyOpt (getField v "timestamp") = true → writeLogEntry v now = v) ∧
    (truthyOpt (getField v "timestamp") = false →
      getField (writeLogEntry v now) "timestamp" = some (.num now)) ∧
    (getField (writeLogEntry v now) "timestamp").isSome = true := by
  have hobj := validateEntry_obj hv
  refine ⟨handleIngest_valid store v now hv,
    fun f hf => writeLogEntry_other now f hobj hf,
    fun ht => writeLogEntry_kept now ht,
    fun ht => writeLogEntry_default now hobj ht, ?_⟩
  rcases ht : truthyOpt (getField v "timestamp") with _ | _
  · rw [writeLogEntry_default now hobj ht]
    rfl
  · rw [writeLogEntry_kept now ht]
    rcases hf : getField v "timestamp" with _ | w
    · rw [hf] at ht
      exact Bool.noConfusion ht
    · rfl

/-- C1, witness at a concrete input: an entry without a timestamp is
stored once, with the server time 7 as its timestamp. -/
theorem ingest_persists_entry_witness :
    handleIngest [] (some entNoTs) 7 true =
      (200, [StoreLine.ok (writeLogEntry entNoTs 7)]) ∧
    getField (writeLogEntry entNoTs 7) "timestamp" = some (.num 7) := by
  have h := ingest_persists_entry [] entNoTs 7 rfl
  exact ⟨h.1, h.2.2.2.1 rfl⟩

/-- C2: a POST /ingest whose body is not parseable JSON, or whose parsed
value does not carry a string at location, message or hypothesisId,
yields status 400 and leaves the store unchanged — same lines, so in
particular the same line count. -/
theorem ingest_rejects_invalid (store : Store) (now : Int) (appendOk : Bool) :
    handleIngest store none now appendOk = (400, store) ∧
    ∀ v : Json,
      (isStrOpt (getField v "location") = false ∨
        isStrOpt (getField v "message") = false ∨
        isStrOpt (getField v "hypothesisId") = false) →
      handleIngest store (some v) now appendOk = (400, store) :=
  ⟨rfl, fun v h => handleIngest_invalid store v now appendOk
    (validateEntry_some_of_badstr h)⟩

/-- C2, witness: the empty object is rejected with 400 and the store is
untouched. -/
theorem ingest_rejects_invalid_witness :
    handleIngest [] (some (.obj .nil)) 7 true = (400, []) :=
  (ingest_rejects_invalid [] 7 true).2 (.obj .nil) (Or.inl rfl)

/-- C3, counterexample: when the append to the store fails on a valid
entry, the collector's catch handler responds 400 — a 400-class status,
not the 500-class status the claim requires. -/
theorem ingest_io_error_cex :
    (handleIngest [] (some entTs5) 7 false).1 = 400 ∧ (400 : Nat) < 500 :=
  ⟨rfl, by decide⟩

/-- C3, amended: a valid POST /ingest during which the append throws is
answered with status 400 (the same catch path as a JSON parse failure),
the store is left unchanged, and the request handler returns a response
normally — the process keeps running. -/
theorem ingest_io_error_responds_400 (store : Store) (v : Json) (now : Int)
    (hv : validateEntry v = none) :
    handleIngest store (some v) now false = (400, store) :=
  handleIngest_appendFail store v now hv

/-- C3, witness at a concrete valid entry. -/
theorem ingest_io_error_responds_400_witness :
    handleIngest [] (some entTs5) 7 false = (400, []) :=
  ingest_io_error_responds_400 [] entTs5 7 rfl

/-- C4, counterexample: over a store holding one parseable line without a
timestamp field, the analyzer substitutes `Date.now()`, so two runs at
clock values 1 and 2 produce different reports (their time ranges
differ). -/
theorem analyzer_nondeterministic_cex :
    (analyzeStore [StoreLine.ok entNoTs] none (fun _ => 1)).timeRange.first =
      some (.num 1) ∧
    (analyzeStore [StoreLine.ok entNoTs] none (fun _ => 2)).timeRange.first =
      some (.num 2) ∧
    analyzeStore [StoreLine.ok entNoTs] none (fun _ => 1) ≠
      analyzeStore [StoreLine.ok entNoTs] none (fun _ => 2) := by
  refine ⟨rfl, rfl, fun h => ?_⟩
  have h2 : (some (Json.num 1) : Option Json) = some (Json.num 2) :=
    congrArg (fun a => a.timeRange.first) h
  injection h2 with h3
  injection h3 with h4
  exact absurd h4 (by decide)

/-- C4, amended: over a store all of whose parseable lines carry a truthy
timestamp, the analyzer never consults the clock, so any two runs with
the same filter produce identical reports; analysis is a pure function of
the store (it returns a report and never produces a new store). -/
theorem analyzer_deterministic (store : Store) (filt : Option String)
    (c1 c2 : Nat → Int)
    (h : ∀ v ∈ parseLogFile store, truthyOpt (getField v "timestamp") = true) :
    analyzeStore store filt c1 = analyzeStore store filt c2 :=
  analyzeEntries_clock_irrelevant _ filt c1 c2 h

/-- C4, witness: a store with one timestamped entry analyzes identically
under two different clocks. -/
theorem analyzer_deterministic_witness :
    analyzeStore [StoreLine.ok entTs5] none (fun _ => 1) =
      analyzeStore [StoreLine.ok entTs5] none (fun _ => 2) := by
  apply analyzer_deterministic
  intro v hv
  have hv2 : v = entTs5 := by simpa [parseLogFile] using hv
  rw [hv2]
  rfl

/-- C5, counterexample: the empty filter string is falsy in JavaScript,
so `analyze(filter="")` does not filter at all: over a store with one
entry of hypothesis "A" it reports the group "A", whose id differs from
the filter value "". -/
theorem analyzer_filter_cex :
    ((analyzeStore [StoreLine.ok entTs5] (some "") (fun _ => 1)).hypotheses.map
      Prod.fst) = ["A"] ∧
    ("A" : String) ≠ "" :=
  ⟨rfl, by decide⟩

/-- C5, amended: for every non-empty filter X, the filtered report
mentions only hypothesis X (every group key and every reported error
carries X); and over stores whose parseable lines all carry a string
hypothesisId, the filtered total equals the count attributed to X by the
unfiltered analysis of the same store (zero when X is absent). -/
theorem analyzer_filter_subset (store : Store) (x : String) (clock : Nat → Int)
    (hx : x ≠ "") :
    (∀ kg ∈ (analyzeStore store (some x) clock).hypotheses, kg.1 = x) ∧
    (∀ er ∈ (analyzeStore store (some x) clock).errors,
      er.hypothesisId = some (.str x)) ∧
    ((∀ v ∈ parseLogFile store, hasStrHyp v = true) →
      (analyzeStore store (some x) clock).total =
        groupCount (analyzeStore store none clock).hypotheses x) := by
  obtain ⟨hh1, ht1, he1⟩ := analyzeEntries_proj (parseLogFile store) (some x) clock
  obtain ⟨hh2, _, _⟩ := analyzeEntries_proj (parseLogFile store) none clock
  refine ⟨?_, ?_, ?_⟩
  · show ∀ kg ∈ (analyzeEntries (parseLogFile store) (some x) clock).hypotheses, kg.1 = x
    rw [hh1]
    exact analyzeLoop_keys x clock (parseLogFile store) _ 0 hx (by intro kg hkg; simp at hkg)
  · show ∀ er ∈ (analyzeEntries (parseLogFile store) (some x) clock).errors, _
    rw [he1]
    exact analyzeLoop_errorsHyp x clock (parseLogFile store) _ 0 hx
      (by intro er her; simp at her)
  · intro hstr
    show (analyzeEntries (parseLogFile store) (some x) clock).total =
      groupCount (analyzeEntries (parseLogFile store) none clock).hypotheses x
    rw [ht1, hh2, analyzeLoop_total, analyzeLoop_groupCount]
    show 0 + _ = groupCount [] x + _
    rw [show groupCount [] x = 0 from rfl]
    congr 1
    apply List.countP_congr
    intro v hv
    have hsv := hstr v hv
    rcases hfv : getField v "hypothesisId" with _ | w
    · rw [hasStrHyp, hfv] at hsv
      exact Bool.noConfusion hsv
    · rcases w with _ | b | n | s | xs | fs
      · rw [hasStrHyp, hfv] at hsv
        exact Bool.noConfusion hsv
      · rw [hasStrHyp, hfv] at hsv
        exact Bool.noConfusion hsv
      · rw [hasStrHyp, hfv] at hsv
        exact Bool.noConfusion hsv
      · by_cases hsx : s = x <;>
          simp [filterTruthy, hypNeq, jsKey_str, hx, hsx]
      · rw [hasStrHyp, hfv] at hsv
        exact Bool.noConfusion hsv
      · rw [hasStrHyp, hfv] at hsv
        exact Bool.noConfusion hsv

/-- C5, witness: filtering a one-entry store by its own hypothesis id. -/
theorem analyzer_filter_subset_witness :
    (∀ kg ∈ (analyzeStore [StoreLine.ok entTs5] (some "A") (fun _ => 1)).hypotheses,
      kg.1 = "A") ∧
    (analyzeStore [StoreLine.ok entTs5] (some "A") (fun _ => 1)).total =
      groupCount (analyzeStore [StoreLine.ok entTs5] none (fun _ => 1)).hypotheses "A" := by
  have h := analyzer_filter_subset [StoreLine.ok entTs5] "A" (fun _ => 1) (by decide)
  refine ⟨h.1, h.2.2 ?_⟩
  intro v hv
  have hv2 : v = entTs5 := by simpa [parseLogFile] using hv
  rw [hv2]
  rfl

/-! ## The serializer round-trips through the parser -/

theorem digitChar_of_ge (d : Nat) (h : 9 ≤ d) : digitChar d = '9' := by
  unfold digitChar
  rw [if_neg (by omega : ¬ (d = 0)), if_neg (by omega : ¬ (d = 1)),
    if_neg (by omega : ¬ (d = 2)), if_neg (by omega : ¬ (d = 3)),
    if_neg (by omega : ¬ (d = 4)), if_neg (by omega : ¬ (d = 5)),
    if_neg (by omega : ¬ (d = 6)), if_neg (by omega : ¬ (d = 7)),
    if_neg (by omega : ¬ (d = 8))]

theorem digitChar_lt_ten (d : Nat) : ∃ k, k < 10 ∧ digitChar d = digitChar k := by
  rcases Nat.lt_or_ge d 10 with h | h
  · exact ⟨d, h, rfl⟩
  · refine ⟨9, by omega, ?_⟩
    rw [digitChar_of_ge d (by omega)]
    rfl

theorem digitChar_isDigit (d : Nat) : (digitChar d).isDigit = true := by
  unfold digitChar
  repeat' split
  all_goals decide

theorem digitChar_toNat (d : Nat) (h : d < 10) : (digitChar d).toNat - 48 = d := by
  interval_cases d <;> decide

theorem digitChar_not_special (k : Nat) :
    digitChar k ≠ 'n' ∧ digitChar k ≠ 't' ∧ digitChar k ≠ 'f' ∧ digitChar k ≠ '"' ∧
    digitChar k ≠ '[' ∧ digitChar k ≠ '{' ∧ digitChar k ≠ '-' := by
  unfold digitChar
  repeat' split
  all_goals decide

theorem natToCharsAux_digits (fuel n : Nat) :
    ∀ c ∈ natToCharsAux fuel n, c.isDigit = true := by
  intro c hc
  obtain ⟨d, rfl⟩ := mem_natToCharsAux fuel n hc
  exact digitChar_isDigit d

theorem natToChars_digits (n : Nat) : ∀ c ∈ natToChars n, c.isDigit = true := by
  intro c hc
  obtain ⟨d, rfl⟩ := mem_natToChars n hc
  exact digitChar_isDigit d

theorem natToCharsAux_ne_nil (n : Nat) (hn : n ≠ 0) : natToCharsAux (n + 1) n ≠ [] := by
  simp only [natToCharsAux, if_neg hn]
  simp

theorem natToChars_ne_nil (n : Nat) : natToChars n ≠ [] := by
  unfold natToChars
  split
  · simp
  · exact natToCharsAux_ne_nil n (by assumption)

theorem takeWhile_digits_append (a rest : List Char)
    (ha : ∀ c ∈ a, c.isDigit = true) (hr : headNotDigit rest = true) :
    (a ++ rest).takeWhile Char.isDigit = a ∧
    (a ++ rest).dropWhile Char.isDigit = rest := by
  induction a with
  | nil =>
    rcases rest with _ | ⟨c, t⟩
    · exact ⟨rfl, rfl⟩
    · simp only [headNotDigit, Bool.not_eq_true'] at hr
      simp [List.takeWhile, List.dropWhile, hr]
  | cons c a ih =>
    have hc := ha c (List.mem_cons_self c a)
    have ha2 : ∀ x ∈ a, x.isDigit = true := fun x hx => ha x (List.mem_cons_of_mem c hx)
    obtain ⟨h1, h2⟩ := ih ha2
    simp [List.takeWhile, List.dropWhile, hc, h1, h2]

theorem foldl_natToCharsAux (fuel : Nat) :
    ∀ (m acc : Nat), m < fuel →
    List.foldl (fun acc c => acc * 10 + (c.toNat - 48)) acc (natToCharsAux fuel m) =
      acc * 10 ^ (natToCharsAux fuel m).length + m := by
  induction fuel with
  | zero => intro m acc h; omega
  | succ fuel ih =>
    intro m acc h
    rcases Nat.eq_zero_or_pos m with h0 | hpos
    · subst h0
      simp [natToCharsAux]
    · have hne : ¬ (m = 0) := by omega
      simp only [natToCharsAux, if_neg hne]
      rw [List.foldl_append, List.length_append]
      have hdiv : m / 10 < fuel := by
        have := Nat.div_le_self m 10
        have h10 : m / 10 < m := Nat.div_lt_self hpos (by omega)
        omega
      rw [ih (m / 10) acc hdiv]
      simp only [List.foldl_cons, List.foldl_nil, List.length_singleton]
      rw [digitChar_toNat (m % 10) (Nat.mod_lt m (by omega))]
      have key : acc * 10 ^ ((natToCharsAux fuel (m / 10)).length + 1) =
          acc * 10 ^ (natToCharsAux fuel (m / 10)).length * 10 := by
        rw [pow_succ, Nat.mul_assoc]
      rw [key]
      omega

theorem digitsVal_natToChars (m : Nat) : digitsVal (natToChars m) = m := by
  unfold digitsVal natToChars
  split
  · rename_i h
    subst h
    decide
  · rw [foldl_natToCharsAux (m + 1) m 0 (by omega)]
    simp

theorem pNum_natToChars (m : Nat) (rest : List Char) (hr : headNotDigit rest = true) :
    pNum (natToChars m ++ rest) = some (m, rest) := by
  unfold pNum
  obtain ⟨h1, h2⟩ := takeWhile_digits_append (natToChars m) rest (natToChars_digits m) hr
  rw [h1, h2, if_neg (natToChars_ne_nil m), digitsVal_natToChars]

theorem pStrBody_cons_esc (e c2 : Char) (t : List Char) (h : unescChar e = some c2) :
    pStrBody ('\\' :: e :: t) = (pStrBody t).map fun p => (c2 :: p.1, p.2) := by
  simp [pStrBody, h]

theorem pStrBody_cons_quote (rest : List Char) :
    pStrBody ('"' :: rest) = some ([], rest) := by
  cases rest <;> simp [pStrBody]

theorem pStrBody_cons_plain (c : Char) (t : List Char) (h1 : ¬ (c = '"'))
    (h2 : ¬ (c = '\\')) :
    pStrBody (c :: t) = (pStrBody t).map fun p => (c :: p.1, p.2) := by
  cases t <;> simp [pStrBody, h1, h2]

theorem pStrBody_escaped : ∀ (cs : List Char) (rest : List Char),
    pStrBody ((cs.map escChar).flatten ++ '"' :: rest) = some (cs, rest)
  | [], rest => by
    simp only [List.map_nil, List.flatten_nil, List.nil_append]
    exact pStrBody_cons_quote rest
  | c :: cs, rest => by
    have ih := pStrBody_escaped cs rest
    simp only [List.map_cons, List.flatten_cons, List.append_assoc]
    by_cases h1 : c = '"'
    · subst h1
      rw [show escChar '"' = ['\\', '"'] from rfl]
      simp only [List.cons_append, List.nil_append]
      rw [pStrBody_cons_esc '"' '"' _ rfl, ih]
      rfl
    · by_cases h2 : c = '\\'
      · subst h2
        rw [show escChar '\\' = ['\\', '\\'] from rfl]
        simp only [List.cons_append, List.nil_append]
        rw [pStrBody_cons_esc '\\' '\\' _ rfl, ih]
        rfl
      · by_cases h3 : c = '\n'
        · subst h3
          rw [show escChar '\n' = ['\\', 'n'] from rfl]
          simp only [List.cons_append, List.nil_append]
          rw [pStrBody_cons_esc 'n' '\n' _ rfl, ih]
          rfl
        · by_cases h4 : c = '\t'
          · subst h4
            rw [show escChar '\t' = ['\\', 't'] from rfl]
            simp only [List.cons_append, List.nil_append]
            rw [pStrBody_cons_esc 't' '\t' _ rfl, ih]
            rfl
          · by_cases h5 : c = '\r'
            · subst h5
              rw [show escChar '\r' = ['\\', 'r'] from rfl]
              simp only [List.cons_append, List.nil_append]
              rw [pStrBody_cons_esc 'r' '\r' _ rfl, ih]
              rfl
            · rw [show escChar c = [c] from by
                simp only [escChar, if_neg h1, if_neg h2, if_neg h3, if_neg h4, if_neg h5]]
              simp only [List.cons_append, List.nil_append]
              rw [pStrBody_cons_plain c _ h1 h2, ih]
              rfl

theorem intToChars_ne_nil (n : Int) : intToChars n ≠ [] := by
  unfold intToChars
  split
  · simp
  · exact natToChars_ne_nil _

theorem stringify_length_pos (v : Json) : 0 < (stringify v).length := by
  cases v with
  | null => decide
  | bool b => cases b <;> decide
  | num n =>
    show 0 < (intToChars n).length
    exact List.length_pos.mpr (intToChars_ne_nil n)
  | str s =>
    show 0 < (strLit s).length
    simp [strLit]
  | arr xs => simp [stringify]
  | obj fs => simp [stringify]

theorem digitChar_ne_rbrack (k : Nat) : ¬ (digitChar k = ']') := by
  unfold digitChar
  repeat' split
  all_goals decide

theorem natToCharsAux_head (fuel : Nat) :
    ∀ m, natToCharsAux fuel m = [] ∨
      ∃ k t, k < 10 ∧ natToCharsAux fuel m = digitChar k :: t := by
  induction fuel with
  | zero => intro m; exact Or.inl rfl
  | succ fuel ih =>
    intro m
    by_cases h0 : m = 0
    · exact Or.inl (by simp [natToCharsAux, h0])
    · right
      simp only [natToCharsAux, if_neg h0]
      rcases ih (m / 10) with hnil | ⟨k, t, hk, heq⟩
      · rw [hnil]
        obtain ⟨k, hk, hdc⟩ := digitChar_lt_ten (m % 10)
        exact ⟨k, [], hk, by simp [hdc]⟩
      · rw [heq]
        exact ⟨k, t ++ [digitChar (m % 10)], hk, by simp⟩

theorem natToChars_head (m : Nat) :
    ∃ k t, k < 10 ∧ natToChars m = digitChar k :: t := by
  unfold natToChars
  split
  · exact ⟨0, [], by omega, rfl⟩
  · rcases natToCharsAux_head (m + 1) m with hnil | h
    · exact absurd hnil (natToCharsAux_ne_nil m (by assumption))
    · exact h

theorem stringify_head_ne_rbrack (v : Json) :
    ∃ c t, stringify v = c :: t ∧ ¬ (c = ']') := by
  cases v with
  | null => exact ⟨'n', _, rfl, by decide⟩
  | bool b =>
    cases b
    · exact ⟨'f', _, rfl, by decide⟩
    · exact ⟨'t', _, rfl, by decide⟩
  | num n =>
    rcases hs : intToChars n with _ | ⟨c, t⟩
    · exact absurd hs (intToChars_ne_nil n)
    · refine ⟨c, t, hs, ?_⟩
      have hmem : c ∈ intToChars n := by rw [hs]; exact List.mem_cons_self c t
      rcases mem_intToChars n hmem with h1 | ⟨d, h1⟩
      · rw [h1]; decide
      · rw [h1]; exact digitChar_ne_rbrack d
  | str s =>
    exact ⟨'"', (s.data.map escChar).flatten ++ ['"'],
      by simp [stringify, strLit], by decide⟩
  | arr xs =>
    exact ⟨'[', stringifyArr xs ++ [']'], by simp [stringify], by decide⟩
  | obj fs =>
    exact ⟨'{', stringifyObj fs ++ ['}'], by simp [stringify], by decide⟩

theorem stringifyArr_head (x : Json) (tl : JArr) :
    ∃ c t, stringifyArr (.cons x tl) = c :: t ∧ ¬ (c = ']') := by
  obtain ⟨c, t, hx, hc⟩ := stringify_head_ne_rbrack x
  cases tl with
  | nil => exact ⟨c, t, by simp [stringifyArr, hx], hc⟩
  | cons y tl2 =>
    exact ⟨c, t ++ ',' :: stringifyArr (.cons y tl2), by simp [stringifyArr, hx], hc⟩

mutual
theorem pVal_stringify : ∀ (v : Json) (fuel : Nat) (rest : List Char),
    (stringify v).length ≤ fuel → headNotDigit rest = true →
    pVal fuel (stringify v ++ rest) = some (v, rest)
  | v, 0, rest => by
    intro hlen _
    exact absurd hlen (by have := stringify_length_pos v; omega)
  | .null, fuel + 1, rest => by
    intro _ _
    simp [pVal, pLit, stringify]
  | .bool true, fuel + 1, rest => by
    intro _ _
    simp [pVal, pLit, stringify]
  | .bool false, fuel + 1, rest => by
    intro _ _
    simp [pVal, pLit, stringify]
  | .num n, fuel + 1, rest => by
    intro _ hr
    show pVal (fuel + 1) (intToChars n ++ rest) = some (.num n, rest)
    unfold intToChars
    split
    · rename_i hneg
      rw [List.cons_append]
      simp [pVal]
      rw [pNum_natToChars n.natAbs rest hr]
      simp
      rw [abs_of_neg hneg, neg_neg]
    · rename_i hneg
      obtain ⟨k, t, hk, hsplit⟩ := natToChars_head n.toNat
      rw [hsplit, List.cons_append]
      have hn0 : (0 : Int) ≤ n := by omega
      interval_cases k <;>
        (simp [pVal];
         rw [← List.cons_append, ← hsplit, pNum_natToChars n.toNat rest hr];
         simp [Int.toNat_of_nonneg hn0, digitChar])
  | .str s, fuel + 1, rest => by
    intro _ _
    show pVal (fuel + 1) (strLit s ++ rest) = some (.str s, rest)
    rw [show strLit s ++ rest = '"' :: ((s.data.map escChar).flatten ++ '"' :: rest) by
      simp [strLit]]
    simp [pVal]
    rw [pStrBody_escaped s.data rest]
  | .arr .nil, fuel + 1, rest => by
    intro _ _
    show pVal (fuel + 1) (('[' :: stringifyArr .nil ++ [']']) ++ rest) = _
    simp [pVal, stringifyArr]
  | .arr (.cons x tl), fuel + 1, rest => by
    intro hlen _
    obtain ⟨c, t, hsplit, hc⟩ := stringifyArr_head x tl
    show pVal (fuel + 1) (('[' :: stringifyArr (.cons x tl) ++ [']']) ++ rest) = _
    rw [show ('[' :: stringifyArr (.cons x tl) ++ [']']) ++ rest =
      '[' :: (stringifyArr (.cons x tl) ++ ']' :: rest) by simp]
    have hfuel : (stringifyArr (.cons x tl)).length + 1 ≤ fuel := by
      have h2 : (stringify (.arr (.cons x tl))).length =
          (stringifyArr (.cons x tl)).length + 2 := by
        simp [stringify]
      omega
    have hhd : (stringifyArr (.cons x tl) ++ ']' :: rest).head? = some c := by
      rw [hsplit]; rfl
    simp only [pVal]
    rw [pElems_stringify x tl fuel rest hfuel]
    simp [hhd, hc]
  | .obj .nil, fuel + 1, rest => by
    intro _ _
    show pVal (fuel + 1) (('{' :: stringifyObj .nil ++ ['}']) ++ rest) = _
    simp [pVal, stringifyObj]
  | .obj (.cons k v tl), fuel + 1, rest => by
    intro hlen _
    show pVal (fuel + 1) (('{' :: stringifyObj (.cons k v tl) ++ ['}']) ++ rest) = _
    rw [show ('{' :: stringifyObj (.cons k v tl) ++ ['}']) ++ rest =
      '{' :: (stringifyObj (.cons k v tl) ++ '}' :: rest) by simp]
    have hfuel : (stringifyObj (.cons k v tl)).length + 1 ≤ fuel := by
      have h2 : (stringify (.obj (.cons k v tl))).length =
          (stringifyObj (.cons k v tl)).length + 2 := by
        simp [stringify]
      omega
    have hhead : (stringifyObj (.cons k v tl) ++ '}' :: rest).head? = some '"' := by
      cases tl <;> simp [stringifyObj, strLit]
    simp only [pVal]
    rw [pMembers_stringify k v tl fuel rest hfuel]
    simp [hhead]

theorem pElems_stringify : ∀ (x : Json) (tl : JArr) (fuel : Nat) (rest : List Char),
    (stringifyArr (.cons x tl)).length + 1 ≤ fuel →
    pElems fuel (stringifyArr (.cons x tl) ++ ']' :: rest) = some (.cons x tl, rest)
  | x, tl, 0, rest => by
    intro h
    exact absurd h (by omega)
  | x, .nil, fuel + 1, rest => by
    intro hlen
    show pElems (fuel + 1) (stringify x ++ ']' :: rest) = some (.cons x .nil, rest)
    have hx : (stringify x).length ≤ fuel := by
      have h2 : stringifyArr (.cons x .nil) = stringify x := by simp [stringifyArr]
      rw [h2] at hlen
      omega
    simp only [pElems]
    rw [pVal_stringify x fuel (']' :: rest) hx (by simp [headNotDigit])]
    simp
  | x, .cons y tl2, fuel + 1, rest => by
    intro hlen
    show pElems (fuel + 1)
      ((stringify x ++ ',' :: stringifyArr (.cons y tl2)) ++ ']' :: rest) = _
    rw [show (stringify x ++ ',' :: stringifyArr (.cons y tl2)) ++ ']' :: rest =
      stringify x ++ ',' :: (stringifyArr (.cons y tl2) ++ ']' :: rest) by simp]
    have hlen2 : (stringifyArr (.cons x (.cons y tl2))).length =
        (stringify x).length + 1 + (stringifyArr (.cons y tl2)).length := by
      simp [stringifyArr]
      omega
    have hx : (stringify x).length ≤ fuel := by omega
    have hrec : (stringifyArr (.cons y tl2)).length + 1 ≤ fuel := by omega
    simp only [pElems]
    rw [pVal_stringify x fuel (',' :: (stringifyArr (.cons y tl2) ++ ']' :: rest)) hx
      (by simp [headNotDigit])]
    simp
    rw [pElems_stringify y tl2 fuel rest hrec]

theorem pMembers_stringify : ∀ (k : String) (v : Json) (tl : JObj) (fuel : Nat)
    (rest : List Char),
    (stringifyObj (.cons k v tl)).length + 1 ≤ fuel →
    pMembers fuel (stringifyObj (.cons k v tl) ++ '}' :: rest) =
      some (.cons k v tl, rest)
  | k, v, tl, 0, rest => by
    intro h
    exact absurd h (by omega)
  | k, v, .nil, fuel + 1, rest => by
    intro hlen
    show pMembers (fuel + 1) ((strLit k ++ ':' :: stringify v) ++ '}' :: rest) = _
    rw [show (strLit k ++ ':' :: stringify v) ++ '}' :: rest =
      '"' :: ((k.data.map escChar).flatten ++ '"' ::
        (':' :: (stringify v ++ '}' :: rest))) by simp [strLit]]
    have hsl : 0 < (strLit k).length := by simp [strLit]
    have hv : (stringify v).length ≤ fuel := by
      have h2 : (stringifyObj (.cons k v .nil)).length =
          (strLit k).length + 1 + (stringify v).length := by
        simp [stringifyObj]
        omega
      omega
    simp only [pMembers]
    rw [pStrBody_escaped k.data (':' :: (stringify v ++ '}' :: rest))]
    simp
    rw [pVal_stringify v fuel ('}' :: rest) hv (by simp [headNotDigit])]
    simp
  | k, v, .cons k2 v2 tl2, fuel + 1, rest => by
    intro hlen
    show pMembers (fuel + 1)
      ((strLit k ++ ':' :: stringify v ++ ',' :: stringifyObj (.cons k2 v2 tl2)) ++
        '}' :: rest) = _
    rw [show (strLit k ++ ':' :: stringify v ++ ',' :: stringifyObj (.cons k2 v2 tl2)) ++
        '}' :: rest =
      '"' :: ((k.data.map escChar).flatten ++ '"' ::
        (':' :: (stringify v ++
          ',' :: (stringifyObj (.cons k2 v2 tl2) ++ '}' :: rest)))) by simp [strLit]]
    have hsl : 0 < (strLit k).length := by simp [strLit]
    have hlen2 : (stringifyObj (.cons k v (.cons k2 v2 tl2))).length =
        (strLit k).length + 1 + (stringify v).length + 1 +
          (stringifyObj (.cons k2 v2 tl2)).length := by
      simp [stringifyObj]
      omega
    have hv : (stringify v).length ≤ fuel := by omega
    have hrec : (stringifyObj (.cons k2 v2 tl2)).length + 1 ≤ fuel := by omega
    simp only [pMembers]
    rw [pStrBody_escaped k.data
      (':' :: (stringify v ++ ',' :: (stringifyObj (.cons k2 v2 tl2) ++ '}' :: rest)))]
    simp
    rw [pVal_stringify v fuel
      (',' :: (stringifyObj (.cons k2 v2 tl2) ++ '}' :: rest)) hv
      (by simp [headNotDigit])]
    simp
    rw [pMembers_stringify k2 v2 tl2 fuel rest hrec]
end

/-- `JSON.parse` inverts `JSON.stringify`: parsing a serialized line
recovers the original value. -/
theorem jsonParse_stringify (v : Json) : jsonParse (stringify v) = some v := by
  unfold jsonParse
  have h := pVal_stringify v ((stringify v).length + 1) [] (by omega) rfl
  rw [List.append_nil] at h
  rw [h]

/-- C6: with no filter and no truncation, appending N entries one at a
time (each append one whole serialized line, the spec's line-atomic
append), arbitrarily interleaved with the tailer's detection cycles, the
tailer has emitted — after its next detection cycle — exactly those N
entries in append order: none dropped, duplicated or reordered.  That
`JSON.parse` recovers each appended entry from its serialized line is
the codec round-trip proven above. -/
theorem tailer_no_loss (steps : List TStep) (hnt : noTrunc steps = true) :
    (tailRun none (steps ++ [TStep.cyc]) tailInit).2 =
      (appendsOf steps).map TailEvent.entry :=
  tailRun_from_empty steps hnt (fun v _ => jsonParse_stringify v)

/-- C6, witness: two appends interleaved with cycles emit exactly the two
entries in order. -/
theorem tailer_no_loss_witness :
    (tailRun none ([TStep.app entA, TStep.cyc, TStep.app entB] ++ [TStep.cyc])
      tailInit).2 = [TailEvent.entry entA, TailEvent.entry entB] :=
  tailer_no_loss [TStep.app entA, TStep.cyc, TStep.app entB] rfl

/-- C7, counterexample: the store is cleared after `entA` was surfaced,
then `entB` and `entC` are appended before the tailer runs another
detection cycle.  The two new lines together are longer than the old
content, so the next cycle sees a grown file, never detects the
truncation, and resumes from the stale cursor: it emits only `entC`,
not the claimed "exactly those M new entries" `entB, entC`. -/
theorem tailer_truncation_cex :
    (tailRun none [TStep.app entA, TStep.cyc, TStep.trunc, TStep.app entB,
      TStep.app entC, TStep.cyc] tailInit).2 =
      [TailEvent.entry entA, TailEvent.entry entC] ∧
    [TailEvent.entry entA, TailEvent.entry entC] ≠
      [TailEvent.entry entA, TailEvent.entry entB, TailEvent.entry entC] := by
  refine ⟨rfl, fun h => ?_⟩
  have hlen := congrArg List.length h
  simp at hlen

/-- C7, amended: provided the tailer runs one detection cycle right after
the truncation (more generally: while the store is still shorter than its
cursor, so the shrink is observed), a truncation-free run before the
clear and M appends after it make the tailer emit, after the truncation,
exactly the M new entries and never re-emit a pre-truncation entry: the
events of the whole run are the pre-truncation events followed by exactly
the M new entries. -/
theorem tailer_truncation_detected (s1 s2 : List TStep)
    (h1 : noTrunc s1 = true) (h2 : noTrunc s2 = true) :
    (tailRun none (s1 ++ [TStep.trunc, TStep.cyc] ++ s2 ++ [TStep.cyc]) tailInit).2 =
      (tailRun none s1 tailInit).2 ++ (appendsOf s2).map TailEvent.entry := by
  rw [show s1 ++ [TStep.trunc, TStep.cyc] ++ s2 ++ [TStep.cyc] =
    s1 ++ ([TStep.trunc, TStep.cyc] ++ (s2 ++ [TStep.cyc])) by
      simp [List.append_assoc]]
  rw [tailRun_append]
  obtain ⟨k', hk1, hk2, heq⟩ := tailRun_sync s1 h1 [] 0 (by simp)
    (fun v _ => jsonParse_stringify v)
  simp only [List.nil_append] at hk2 heq
  rw [show tailInit = ((fileOf [], syncSt [] 0) : List Char × TailState) from rfl, heq]
  rw [tailRun_append]
  rw [show syncSt (appendsOf s1) k' =
    (⟨(fileOf ((appendsOf s1).take k')).length, []⟩ : TailState) from rfl]
  rw [tailRun_trunc_cyc]
  rw [tailRun_from_empty s2 h2 (fun v _ => jsonParse_stringify v)]
  simp

/-- C7, witness: append, cycle, clear, an observing cycle, two appends,
cycle: the two post-truncation entries are emitted and nothing is
re-emitted. -/
theorem tailer_truncation_detected_witness :
    (tailRun none ([TStep.app entA, TStep.cyc] ++ [TStep.trunc, TStep.cyc] ++
      [TStep.app entB, TStep.app entC] ++ [TStep.cyc]) tailInit).2 =
      (tailRun none [TStep.app entA, TStep.cyc] tailInit).2 ++
        [TailEvent.entry entB, TailEvent.entry entC] :=
  tailer_truncation_detected [TStep.app entA, TStep.cyc]
    [TStep.app entB, TStep.app entC] rfl rfl

/-- C8: clear-logs is idempotent.  Clearing an existing store leaves it
existing and empty with exit status 0; clearing again gives the same
result; when the store file is absent, clear exits 0 without creating or
modifying anything. -/
theorem clearLogs_idempotent (st : Option Store) :
    (clearLogs st).1 = 0 ∧
    clearLogs ((clearLogs st).2) = clearLogs st ∧
    (∀ s, st = some s → (clearLogs st).2 = some []) ∧
    (st = none → clearLogs st = (0, none)) := by
  rcases st with _ | s
  · exact ⟨rfl, rfl, fun s h => Option.noConfusion h, fun _ => rfl⟩
  · exact ⟨rfl, rfl, fun s2 _ => rfl, fun h => Option.noConfusion h⟩

/-- C8, witness at a concrete non-empty store. -/
theorem clearLogs_idempotent_witness :
    (clearLogs (some [StoreLine.bad "x"])).1 = 0 ∧
    (clearLogs (some [StoreLine.bad "x"])).2 = some [] ∧
    clearLogs ((clearLogs (some [StoreLine.bad "x"])).2) =
      clearLogs (some [StoreLine.bad "x"]) := by
  have h := clearLogs_idempotent (some [StoreLine.bad "x"])
  exact ⟨h.1, h.2.2.1 _ rfl, h.2.1⟩

/-- C9: an entry whose location, message or hypothesisId is present but
is the empty string is rejected with 400 and nothing is appended —
validation tests the fields for truthiness, so the empty string fails it. -/
theorem ingest_rejects_empty_fields (store : Store) (now : Int) (appendOk : Bool)
    (v : Json)
    (h : getField v "location" = some (.str "") ∨
      getField v "message" = some (.str "") ∨
      getField v "hypothesisId" = some (.str "")) :
    handleIngest store (some v) now appendOk = (400, store) :=
  handleIngest_invalid store v now appendOk (validateEntry_some_of_empty h)

/-- C9, witness: an entry with an empty location is rejected. -/
theorem ingest_rejects_empty_fields_witness :
    handleIngest [] (some (.obj (.cons "location" (.str "")
      (.cons "message" (.str "m") (.cons "hypothesisId" (.str "A") .nil)))))
      7 true = (400, []) :=
  ingest_rejects_empty_fields [] 7 true _ (Or.inl rfl)

/-- C10, counterexample: the entry `entArrLevel` has `level = ["error"]`.
As a property key the array coerces to the string "error", so the group's
level counter for "error" becomes 1, but the strict comparison
`level === 'error'` is false, so no error is recorded: the error-list
length (0) differs from the group's level count for "error" (1). -/
theorem analyzer_invariants_cex :
    ((analyzeStore [StoreLine.ok entArrLevel] none (fun _ => 1)).hypotheses.map
      (fun kg => (kg.2.errors.length, lookupCount kg.2.levels "error"))) = [(0, 1)] ∧
    (0 : Nat) ≠ 1 :=
  ⟨rfl, by decide⟩

/-- C10, amended: over stores whose parseable lines have a numeric
timestamp when one is truthy and a string level when one is truthy (the
shape every documented logging client produces), each group of every
report satisfies: count = sum of its level counts = sum of its location
counts, error-list length = its level count for "error", and
firstTimestamp ≤ lastTimestamp (numerically, hence also under the JS
comparison); the report's total is the sum of the group counts and the
global error list is as long as all group error lists together. -/
theorem analyzer_invariants (store : Store) (filt : Option String)
    (clock : Nat → Int) (h : ∀ v ∈ parseLogFile store, goodEntry v = true) :
    AnalysisInv (analyzeStore store filt clock) :=
  analyzeEntries_inv _ filt clock h

/-- C10, witness: the invariants of the report over a concrete store. -/
theorem analyzer_invariants_witness :
    AnalysisInv (analyzeStore [StoreLine.ok entTs5] none (fun _ => 1)) := by
  apply analyzer_invariants
  intro v hv
  have hv2 : v = entTs5 := by simpa [parseLogFile] using hv
  rw [hv2]
  rfl